import Mathlib

/-!
Verification of the wire-codec core of `ckb-ics` (file `src/axon/src/object.rs`).

The entity layer (the structures `Packet`, `ConnectionEnd`, `ChannelEnd`,
`PacketAck`, `ConnectionCounterparty`, `ChannelCounterparty`, `Version`, the
enumerations `State` and `Ordering`, the error taxonomy `VerifyError`, the
helper `Packet::equal_unless_sequence`, and the `Default` constructors) is
translated directly from `object.rs`.

The byte-level wire format itself is produced by the `rlp` / `rlp_derive`
dependencies, whose sources are not part of this repository's tree.  Those
parts are modelled from the specification's encoding discipline (spec section
4.1): composite entities encode as an ordered, length-prefixed list of their
fields in declaration order; strings and byte blobs encode as length-prefixed
raw bytes; unsigned integers encode as their minimal big-endian
representation; enumerations encode as a single-element list containing their
numeric tag; optional fields encode as an empty marker (empty list) or a
single-element list holding the value; the decoder rejects any byte sequence
that does not conform to the entity's field-count and field-type layout.

Bytes are modelled as natural numbers (values below 256 in every well-formed
entity); machine integers (`u8`, `u16`, `u64`) are natural numbers bounded by
the corresponding power of two in the well-formedness predicates.  Rust
strings are modelled by their UTF-8 byte lists, whose equality coincides with
Rust `String` equality.  All functions are plain structural recursions (the
byte parser is fuel-indexed), so every definition evaluates inside the
kernel.
-/

namespace Ics

/-! ## Minimal big-endian representation of unsigned integers -/

/-- Value of a big-endian byte string (most significant byte first).  This is
how the spec's wire format reads back an unsigned integer. -/
def beVal (s : List Nat) : Nat := s.foldl (fun a b => 256 * a + b) 0

/-- Fuel-indexed worker for `beBytes`; the fuel makes the recursion
structural so that the kernel can evaluate it. -/
def beBytesF : Nat → Nat → List Nat
  | 0, _ => []
  | _ + 1, 0 => []
  | f + 1, n + 1 => beBytesF f ((n + 1) / 256) ++ [(n + 1) % 256]

/-- Modelled from the spec: the minimal big-endian byte representation of an
unsigned integer (spec section 4.1: integers encode as their minimal
big-endian representation; zero is the empty string). -/
def beBytes (n : Nat) : List Nat := beBytesF n n

theorem beBytesF_irrel : ∀ f f' n, n ≤ f → n ≤ f' → beBytesF f n = beBytesF f' n := by
  intro f
  induction f with
  | zero =>
    intro f' n hf _
    interval_cases n
    cases f' <;> rfl
  | succ f ih =>
    intro f' n hf hf'
    match n, f' with
    | 0, 0 => rfl
    | 0, f' + 1 => rfl
    | n + 1, f' + 1 =>
      have hdiv : (n + 1) / 256 ≤ f := by
        have := Nat.div_lt_self (Nat.succ_pos n) (by norm_num : 1 < 256)
        omega
      have hdiv' : (n + 1) / 256 ≤ f' := by
        have := Nat.div_lt_self (Nat.succ_pos n) (by norm_num : 1 < 256)
        omega
      simp only [beBytesF]
      rw [ih f' ((n + 1) / 256) hdiv hdiv']

/-- Unfolding equation for `beBytes` (low byte last). -/
theorem beBytes_eq (n : Nat) :
    beBytes n = if n = 0 then [] else beBytes (n / 256) ++ [n % 256] := by
  match n with
  | 0 => rfl
  | n + 1 =>
    simp only [beBytes, beBytesF, if_neg (Nat.succ_ne_zero n)]
    have hdiv : (n + 1) / 256 ≤ n := by
      have := Nat.div_lt_self (Nat.succ_pos n) (by norm_num : 1 < 256)
      omega
    rw [beBytesF_irrel n ((n + 1) / 256) ((n + 1) / 256) hdiv le_rfl]

theorem beVal_append_singleton (l : List Nat) (x : Nat) :
    beVal (l ++ [x]) = 256 * beVal l + x := by
  simp [beVal, List.foldl_append]

/-- Reading back the minimal big-endian bytes recovers the integer. -/
theorem beVal_beBytes (n : Nat) : beVal (beBytes n) = n := by
  induction n using Nat.strong_induction_on with
  | _ n ih =>
    rw [beBytes_eq]
    by_cases h : n = 0
    · simp [h, beVal]
    · rw [if_neg h, beVal_append_singleton, ih (n / 256) (Nat.div_lt_self (Nat.pos_of_ne_zero h) (by norm_num))]
      omega

theorem beBytes_eq_nil_iff (n : Nat) : beBytes n = [] ↔ n = 0 := by
  constructor
  · intro h
    by_contra hn
    rw [beBytes_eq, if_neg hn] at h
    simp at h
  · rintro rfl; rfl

/-- The leading byte of a nonzero integer's minimal representation is
nonzero (no leading zero bytes). -/
theorem beBytes_headI_ne_zero (n : Nat) (h : n ≠ 0) : (beBytes n).headI ≠ 0 := by
  induction n using Nat.strong_induction_on with
  | _ n ih =>
    rw [beBytes_eq, if_neg h]
    by_cases hd : n / 256 = 0
    · rw [hd]
      simp only [beBytes, beBytesF, List.nil_append]
      have : n % 256 = n := by omega
      simp [List.headI, this, h]
    · have hne : beBytes (n / 256) ≠ [] := by
        rw [ne_eq, beBytes_eq_nil_iff]; exact hd
      rcases List.exists_cons_of_ne_nil hne with ⟨a, t, ha⟩
      rw [ha, List.cons_append]
      have := ih (n / 256) (Nat.div_lt_self (Nat.pos_of_ne_zero h) (by norm_num)) hd
      rw [ha] at this
      simpa using this

theorem beBytes_length_le (n k : Nat) (h : n < 256 ^ k) : (beBytes n).length ≤ k := by
  induction k generalizing n with
  | zero =>
    have : n = 0 := by simpa using h
    simp [this, beBytes, beBytesF]
  | succ k ih =>
    rw [beBytes_eq]
    by_cases hz : n = 0
    · simp [hz]
    · rw [if_neg hz]
      have : n / 256 < 256 ^ k := by
        rw [Nat.div_lt_iff_lt_mul (by norm_num : 0 < 256)]
        calc n < 256 ^ (k + 1) := h
          _ = 256 ^ k * 256 := by ring
      have := ih (n / 256) this
      simp [List.length_append]
      omega

theorem beBytes_ne_nil (n : Nat) (h : n ≠ 0) : beBytes n ≠ [] := by
  rw [ne_eq, beBytes_eq_nil_iff]; exact h

theorem beBytes_length_pos (n : Nat) (h : n ≠ 0) : 1 ≤ (beBytes n).length := by
  have := beBytes_ne_nil n h
  have := List.length_pos.mpr this
  omega

/-! ## The wire item tree and its encoder

Modelled from the spec (section 4.1): a wire value is either a byte string or
a list of wire values.  `encodeLength`/`strEnc`/`listEnc` produce the
canonical length-prefixed forms; `parseItem` is the byte-level reader. -/

/-- A structural wire value: a raw byte string or a list of wire values. -/
inductive Item where
  | str : List Nat → Item
  | list : List Item → Item

/-- Modelled from the spec: the length prefix of a payload of `len` bytes.
Short payloads (below 56 bytes) use a single prefix byte `offset + len`;
longer payloads use `offset + 55 + k` followed by the `k` minimal big-endian
bytes of `len`. -/
def encodeLength (len offset : Nat) : List Nat :=
  if len < 56 then [offset + len] else (offset + 55 + (beBytes len).length) :: beBytes len

/-- Modelled from the spec: a byte string encodes as itself when it is a
single byte below 128, and as a length prefix (offset 128) followed by the
raw bytes otherwise. -/
def strEnc (s : List Nat) : List Nat :=
  match s with
  | [x] => if x < 128 then [x] else [129, x]
  | _ => encodeLength s.length 128 ++ s

/-- Modelled from the spec: an unsigned integer encodes as the byte string of
its minimal big-endian representation. -/
def uintEnc (n : Nat) : List Nat := strEnc (beBytes n)

/-- Modelled from the spec: a list whose members' encodings concatenate to
`payload` encodes as a length prefix (offset 192) followed by `payload`. -/
def listEnc (payload : List Nat) : List Nat := encodeLength payload.length 192 ++ payload

/-! ## The byte-level parser

Modelled from the spec (section 4.1): the reader dispatches on the prefix
byte, checks that the declared payload is fully present, and rejects
non-canonical forms (a single byte below 128 wrapped in a length prefix, a
long length that would fit the short form, a length with leading zero
bytes).  It is fuel-indexed so that the recursion is structural. -/

/-- Parse a sequence of items consuming the whole input, given a parser `p1`
for one item. -/
def parseMany (p1 : List Nat → Option (Item × List Nat)) : Nat → List Nat → Option (List Item)
  | _, [] => some []
  | 0, _ :: _ => none
  | f + 1, b :: bs =>
    match p1 (b :: bs) with
    | some (it, rest) =>
      match parseMany p1 f rest with
      | some its => some (it :: its)
      | none => none
    | none => none

/-- One dispatch step of the item parser: reads the prefix byte and, for
list forms, parses the payload with the callback `rec`.  Factored out of
`parseItem` so that it is not recursive and unfolds by its equations. -/
def parseStep (rec : List Nat → Option (Item × List Nat)) : List Nat → Option (Item × List Nat)
  | [] => none
  | b :: bs =>
    if b < 128 then some (.str [b], bs)
    else if b < 184 then
      if b - 128 ≤ bs.length then
        if b - 128 = 1 ∧ bs.headI < 128 then none
        else some (.str (bs.take (b - 128)), bs.drop (b - 128))
      else none
    else if b < 192 then
      if b - 183 ≤ bs.length ∧ bs.headI ≠ 0 then
        if 55 < beVal (bs.take (b - 183)) ∧
            beVal (bs.take (b - 183)) ≤ (bs.drop (b - 183)).length then
          some (.str ((bs.drop (b - 183)).take (beVal (bs.take (b - 183)))),
            (bs.drop (b - 183)).drop (beVal (bs.take (b - 183))))
        else none
      else none
    else if b < 248 then
      if b - 192 ≤ bs.length then
        match parseMany rec (b - 192 + 1) (bs.take (b - 192)) with
        | some its => some (.list its, bs.drop (b - 192))
        | none => none
      else none
    else
      if b - 247 ≤ bs.length ∧ bs.headI ≠ 0 then
        if 55 < beVal (bs.take (b - 247)) ∧
            beVal (bs.take (b - 247)) ≤ (bs.drop (b - 247)).length then
          match parseMany rec (beVal (bs.take (b - 247)) + 1)
              ((bs.drop (b - 247)).take (beVal (bs.take (b - 247)))) with
          | some its => some (.list its, (bs.drop (b - 247)).drop (beVal (bs.take (b - 247))))
          | none => none
        else none
      else none

/-- Parse one item from the front of the input, returning it together with
the unconsumed remainder. -/
def parseItem : Nat → List Nat → Option (Item × List Nat)
  | 0, _ => none
  | fuel + 1, bs => parseStep (parseItem fuel) bs

theorem parseItem_succ (f : Nat) (bs : List Nat) :
    parseItem (f + 1) bs = parseStep (parseItem f) bs := rfl

/-- Modelled from the spec: decode a whole byte string into one wire item,
rejecting inputs that are not exactly one well-formed item (the spec's
decoder does not attempt partial recovery and rejects non-conforming byte
sequences).  The fuel `3 * bs.length` is always sufficient, see
`parseItem_fuel` below. -/
def rlpDecode (bs : List Nat) : Option Item :=
  match parseItem (3 * bs.length) bs with
  | some (it, []) => some it
  | _ => none

/-! ## List helpers -/

theorem take_len_append {α : Type} (l₁ l₂ : List α) : (l₁ ++ l₂).take l₁.length = l₁ := by
  simp

theorem drop_len_append {α : Type} (l₁ l₂ : List α) : (l₁ ++ l₂).drop l₁.length = l₂ := by
  simp

theorem headI_append (l₁ l₂ : List Nat) (h : l₁ ≠ []) : (l₁ ++ l₂).headI = l₁.headI := by
  rcases l₁ with _ | ⟨a, t⟩
  · exact absurd rfl h
  · rfl

/-! ## Branch equations of the parser -/

theorem parseItem_zero (bs : List Nat) : parseItem 0 bs = none := rfl

theorem parseItem_nil (f : Nat) : parseItem (f + 1) [] = none := rfl

theorem parseItem_single (f b : Nat) (bs : List Nat) (h : b < 128) :
    parseItem (f + 1) (b :: bs) = some (.str [b], bs) := by
  rw [parseItem_succ]
  simp only [parseStep, if_pos h]

theorem parseItem_short_str (f b : Nat) (bs : List Nat)
    (h1 : 128 ≤ b) (h2 : b < 184) (h3 : b - 128 ≤ bs.length)
    (h4 : ¬(b - 128 = 1 ∧ bs.headI < 128)) :
    parseItem (f + 1) (b :: bs) = some (.str (bs.take (b - 128)), bs.drop (b - 128)) := by
  rw [parseItem_succ]
  simp only [parseStep]
  rw [if_neg (by omega), if_pos h2, if_pos h3, if_neg h4]

theorem parseItem_short_str_fail (f b : Nat) (bs : List Nat)
    (h1 : 128 ≤ b) (h2 : b < 184) (h3 : bs.length < b - 128) :
    parseItem (f + 1) (b :: bs) = none := by
  rw [parseItem_succ]
  simp only [parseStep]
  rw [if_neg (by omega), if_pos h2, if_neg (by omega)]

theorem parseItem_long_str (f b : Nat) (bs : List Nat)
    (h1 : 184 ≤ b) (h2 : b < 192) (h3 : b - 183 ≤ bs.length) (h4 : bs.headI ≠ 0)
    (h5 : 55 < beVal (bs.take (b - 183)))
    (h6 : beVal (bs.take (b - 183)) ≤ (bs.drop (b - 183)).length) :
    parseItem (f + 1) (b :: bs) =
      some (.str ((bs.drop (b - 183)).take (beVal (bs.take (b - 183)))),
        (bs.drop (b - 183)).drop (beVal (bs.take (b - 183)))) := by
  rw [parseItem_succ]
  simp only [parseStep]
  rw [if_neg (by omega), if_neg (by omega), if_pos h2, if_pos ⟨h3, h4⟩, if_pos ⟨h5, h6⟩]

theorem parseItem_short_list (f b : Nat) (bs : List Nat) (its : List Item)
    (h1 : 192 ≤ b) (h2 : b < 248) (h3 : b - 192 ≤ bs.length)
    (h4 : parseMany (parseItem f) (b - 192 + 1) (bs.take (b - 192)) = some its) :
    parseItem (f + 1) (b :: bs) = some (.list its, bs.drop (b - 192)) := by
  rw [parseItem_succ]
  simp only [parseStep]
  rw [if_neg (by omega), if_neg (by omega), if_neg (by omega), if_pos h2, if_pos h3, h4]

theorem parseItem_short_list_fail (f b : Nat) (bs : List Nat)
    (h1 : 192 ≤ b) (h2 : b < 248) (h3 : bs.length < b - 192) :
    parseItem (f + 1) (b :: bs) = none := by
  rw [parseItem_succ]
  simp only [parseStep]
  rw [if_neg (by omega), if_neg (by omega), if_neg (by omega), if_pos h2, if_neg (by omega)]

theorem parseItem_long_list (f b : Nat) (bs : List Nat) (its : List Item)
    (h1 : 248 ≤ b) (h3 : b - 247 ≤ bs.length) (h4 : bs.headI ≠ 0)
    (h5 : 55 < beVal (bs.take (b - 247)))
    (h6 : beVal (bs.take (b - 247)) ≤ (bs.drop (b - 247)).length)
    (h7 : parseMany (parseItem f) (beVal (bs.take (b - 247)) + 1)
      ((bs.drop (b - 247)).take (beVal (bs.take (b - 247)))) = some its) :
    parseItem (f + 1) (b :: bs) =
      some (.list its, (bs.drop (b - 247)).drop (beVal (bs.take (b - 247)))) := by
  rw [parseItem_succ]
  simp only [parseStep]
  rw [if_neg (by omega), if_neg (by omega), if_neg (by omega), if_neg (by omega),
    if_pos ⟨h3, h4⟩, if_pos ⟨h5, h6⟩, h7]

theorem parseItem_long_list_failk (f b : Nat) (bs : List Nat)
    (h1 : 248 ≤ b) (h3 : bs.length < b - 247) :
    parseItem (f + 1) (b :: bs) = none := by
  rw [parseItem_succ]
  simp only [parseStep]
  rw [if_neg (by omega), if_neg (by omega), if_neg (by omega), if_neg (by omega),
    if_neg (fun hc => absurd hc.1 (by omega))]

theorem parseItem_long_list_faillen (f b : Nat) (bs : List Nat)
    (h1 : 248 ≤ b) (h3 : b - 247 ≤ bs.length) (h4 : bs.headI ≠ 0)
    (h6 : (bs.drop (b - 247)).length < beVal (bs.take (b - 247))) :
    parseItem (f + 1) (b :: bs) = none := by
  rw [parseItem_succ]
  simp only [parseStep]
  rw [if_neg (by omega), if_neg (by omega), if_neg (by omega), if_neg (by omega),
    if_pos ⟨h3, h4⟩, if_neg (fun hc => absurd hc.2 (by omega))]

/-! ## Completeness of the parser on encodings -/

theorem strEnc_ne_nil (s : List Nat) : strEnc s ≠ [] := by
  rcases s with _ | ⟨x, _ | ⟨y, t⟩⟩
  · simp [strEnc, encodeLength]
  · simp only [strEnc]
    split <;> simp
  · simp only [strEnc, encodeLength]
    split <;> simp

theorem strEnc_length_pos (s : List Nat) : 1 ≤ (strEnc s).length := by
  have := strEnc_ne_nil s
  have := List.length_pos.mpr this
  omega

theorem listEnc_ne_nil (p : List Nat) : listEnc p ≠ [] := by
  simp only [listEnc, encodeLength]
  split <;> simp

theorem listEnc_length_pos (p : List Nat) : 1 ≤ (listEnc p).length := by
  have := listEnc_ne_nil p
  have := List.length_pos.mpr this
  omega

/-- Parsing a sequence of items: the empty payload yields the empty list at
any fuel. -/
theorem parseMany_nil (p1 : List Nat → Option (Item × List Nat)) (f : Nat) :
    parseMany p1 f [] = some [] := by
  cases f <;> rfl

/-- Parsing a sequence of items: prepending one encoded item to a payload
prepends the parsed item. -/
theorem parseMany_append (p1 : List Nat → Option (Item × List Nat))
    (e tail : List Nat) (it : Item) (its : List Item)
    (he : e ≠ [])
    (h1 : p1 (e ++ tail) = some (it, tail))
    (htail : ∀ f, tail.length < f → parseMany p1 f tail = some its) :
    ∀ f, (e ++ tail).length < f → parseMany p1 f (e ++ tail) = some (it :: its) := by
  intro f hf
  have hel : 1 ≤ e.length := by
    have := List.length_pos.mpr he
    omega
  rw [List.length_append] at hf
  obtain ⟨f', rfl⟩ : ∃ f', f = f' + 1 := ⟨f - 1, by omega⟩
  obtain ⟨b, bs, hcons⟩ : ∃ b bs, e ++ tail = b :: bs := by
    rcases e with _ | ⟨b, t⟩
    · exact absurd rfl he
    · exact ⟨b, t ++ tail, rfl⟩
  rw [hcons]
  simp only [parseMany]
  rw [← hcons, h1]
  simp only [htail f' (by omega)]

/-- Parsing one item from the front of a string encoding succeeds and leaves
the remainder, given fuel at least three times the encoding's length. -/
theorem parse_strEnc (s : List Nat) (h64 : s.length < 2 ^ 64) :
    ∀ fuel rest, 3 * (strEnc s).length ≤ fuel →
      parseItem fuel (strEnc s ++ rest) = some (.str s, rest) := by
  intro fuel rest hfuel
  have hpos := strEnc_length_pos s
  obtain ⟨f, rfl⟩ : ∃ f, fuel = f + 1 := ⟨fuel - 1, by omega⟩
  rcases s with _ | ⟨x, s'⟩
  · have he : strEnc ([] : List Nat) = [128] := rfl
    rw [he]
    show parseItem (f + 1) (128 :: rest) = some (.str [], rest)
    rw [parseItem_short_str f 128 rest (by omega) (by omega) (by omega)
      (fun hc => by omega)]
    simp
  · rcases s' with _ | ⟨y, s''⟩
    · by_cases hx : x < 128
      · have he : strEnc [x] = [x] := by simp [strEnc, hx]
        rw [he]
        show parseItem (f + 1) (x :: rest) = some (.str [x], rest)
        exact parseItem_single f x rest hx
      · have he : strEnc [x] = [129, x] := by simp [strEnc, hx]
        rw [he]
        show parseItem (f + 1) (129 :: x :: rest) = some (.str [x], rest)
        rw [parseItem_short_str f 129 (x :: rest) (by omega) (by omega)
          (by simp) (fun hc => absurd hc.2 (by simpa [List.headI] using hx))]
        simp
    · have hs : strEnc (x :: y :: s'') = encodeLength (x :: y :: s'').length 128 ++ (x :: y :: s'') := rfl
      set s : List Nat := x :: y :: s'' with hsdef
      have hslen : 2 ≤ s.length := by simp [hsdef]
      by_cases hshort : s.length < 56
      · have henc : strEnc s = (128 + s.length) :: s := by
          rw [hs]
          simp [encodeLength, hshort]
        rw [henc]
        show parseItem (f + 1) ((128 + s.length) :: (s ++ rest)) = some (.str s, rest)
        rw [parseItem_short_str f (128 + s.length) (s ++ rest) (by omega) (by omega)
          (by simp only [List.length_append]; omega)
          (fun hc => absurd hc.1 (by omega))]
        have hn : 128 + s.length - 128 = s.length := by omega
        rw [hn, take_len_append, drop_len_append]
      · have hkl1 : 1 ≤ (beBytes s.length).length := beBytes_length_pos _ (by omega)
        have hkl8 : (beBytes s.length).length ≤ 8 := by
          refine beBytes_length_le _ 8 ?_
          calc s.length < 2 ^ 64 := h64
            _ = 256 ^ 8 := by norm_num
        have hbne : beBytes s.length ≠ [] := beBytes_ne_nil _ (by omega)
        have henc : strEnc s = (183 + (beBytes s.length).length) :: (beBytes s.length ++ s) := by
          rw [hs]
          simp only [encodeLength, if_neg hshort]
          rw [List.cons_append]
        rw [henc]
        have hstep : (beBytes s.length ++ s) ++ rest = beBytes s.length ++ (s ++ rest) := by
          rw [List.append_assoc]
        show parseItem (f + 1) ((183 + (beBytes s.length).length) :: ((beBytes s.length ++ s) ++ rest))
          = some (.str s, rest)
        rw [hstep]
        have hk : 183 + (beBytes s.length).length - 183 = (beBytes s.length).length := by omega
        rw [parseItem_long_str f (183 + (beBytes s.length).length)
          (beBytes s.length ++ (s ++ rest)) (by omega) (by omega)
          (by rw [hk]; simp only [List.length_append]; omega)
          (by rw [headI_append _ _ hbne]; exact beBytes_headI_ne_zero _ (by omega))
          (by rw [hk, take_len_append, beVal_beBytes]; omega)
          (by rw [hk, take_len_append, drop_len_append, beVal_beBytes]
              simp only [List.length_append]; omega)]
        rw [hk, take_len_append, drop_len_append, beVal_beBytes,
          take_len_append, drop_len_append]

/-- Parsing one item from the front of an unsigned-integer encoding. -/
theorem parse_uintEnc (n : Nat) (h : n < 2 ^ 64) :
    ∀ fuel rest, 3 * (uintEnc n).length ≤ fuel →
      parseItem fuel (uintEnc n ++ rest) = some (.str (beBytes n), rest) := by
  intro fuel rest hfuel
  have h8 : (beBytes n).length ≤ 8 := by
    refine beBytes_length_le _ 8 ?_
    calc n < 2 ^ 64 := h
      _ = 256 ^ 8 := by norm_num
  exact parse_strEnc (beBytes n) (by omega) fuel rest hfuel

/-- Parsing one item from the front of a list encoding succeeds, given that
the payload parses into the member items. -/
theorem parse_listEnc (p : List Nat) (its : List Item)
    (hlen : p.length < 2 ^ 64)
    (hp : ∀ fuel f, 3 * p.length ≤ fuel → p.length < f →
      parseMany (parseItem fuel) f p = some its) :
    ∀ fuel rest, 3 * (listEnc p).length ≤ fuel →
      parseItem fuel (listEnc p ++ rest) = some (.list its, rest) := by
  intro fuel rest hfuel
  have hpos := listEnc_length_pos p
  obtain ⟨f, rfl⟩ : ∃ f, fuel = f + 1 := ⟨fuel - 1, by omega⟩
  by_cases hshort : p.length < 56
  · have henc : listEnc p = (192 + p.length) :: p := by
      simp [listEnc, encodeLength, hshort]
    have hlel : (listEnc p).length = 1 + p.length := by
      rw [henc]
      simp only [List.length_cons]
      omega
    rw [henc]
    show parseItem (f + 1) ((192 + p.length) :: (p ++ rest)) = some (.list its, rest)
    have hn : 192 + p.length - 192 = p.length := by omega
    rw [parseItem_short_list f (192 + p.length) (p ++ rest) its (by omega) (by omega)
      (by simp only [List.length_append]; omega)
      (by rw [hn, take_len_append]
          exact hp f (p.length + 1) (by omega) (by omega))]
    rw [hn, drop_len_append]
  · have hkl1 : 1 ≤ (beBytes p.length).length := beBytes_length_pos _ (by omega)
    have hkl8 : (beBytes p.length).length ≤ 8 := by
      refine beBytes_length_le _ 8 ?_
      calc p.length < 2 ^ 64 := hlen
        _ = 256 ^ 8 := by norm_num
    have hbne : beBytes p.length ≠ [] := beBytes_ne_nil _ (by omega)
    have henc : listEnc p = (247 + (beBytes p.length).length) :: (beBytes p.length ++ p) := by
      simp only [listEnc, encodeLength, if_neg hshort]
      rw [List.cons_append]
    have hlel : (listEnc p).length = 1 + (beBytes p.length).length + p.length := by
      rw [henc]
      simp only [List.length_cons, List.length_append]
      omega
    rw [henc]
    have hstep : (beBytes p.length ++ p) ++ rest = beBytes p.length ++ (p ++ rest) := by
      rw [List.append_assoc]
    show parseItem (f + 1) ((247 + (beBytes p.length).length) :: ((beBytes p.length ++ p) ++ rest))
      = some (.list its, rest)
    rw [hstep]
    have hk : 247 + (beBytes p.length).length - 247 = (beBytes p.length).length := by omega
    rw [parseItem_long_list f (247 + (beBytes p.length).length)
      (beBytes p.length ++ (p ++ rest)) its (by omega)
      (by rw [hk]; simp only [List.length_append]; omega)
      (by rw [headI_append _ _ hbne]; exact beBytes_headI_ne_zero _ (by omega))
      (by rw [hk, take_len_append, beVal_beBytes]; omega)
      (by rw [hk, take_len_append, drop_len_append, beVal_beBytes]
          simp only [List.length_append]; omega)
      (by rw [hk, take_len_append, drop_len_append, beVal_beBytes, take_len_append]
          exact hp f (p.length + 1) (by omega) (by omega))]
    rw [hk, take_len_append, drop_len_append, beVal_beBytes, drop_len_append]

/-! ## Failure of the parser on truncated encodings -/

theorem parseItem_nil_any (fuel : Nat) : parseItem fuel [] = none := by
  cases fuel <;> rfl

/-- Truncating the encoding of any list form by at least one byte makes the
parser fail: the declared payload length can no longer be satisfied. -/
theorem parse_truncated (p : List Nat) (hlen : p.length < 2 ^ 64) (k : Nat)
    (hk : k < (listEnc p).length) (fuel : Nat) :
    parseItem fuel ((listEnc p).take k) = none := by
  by_cases hshort : p.length < 56
  · have henc : listEnc p = (192 + p.length) :: p := by
      simp [listEnc, encodeLength, hshort]
    have hlel : (listEnc p).length = 1 + p.length := by
      rw [henc]
      simp only [List.length_cons]
      omega
    rw [henc]
    rcases k with _ | j
    · simp only [List.take_zero]
      exact parseItem_nil_any fuel
    · rw [List.take_succ_cons]
      have hj : j < p.length := by omega
      rcases fuel with _ | f
      · exact parseItem_zero _
      · refine parseItem_short_list_fail f (192 + p.length) (p.take j) (by omega) (by omega) ?_
        rw [List.length_take]
        omega
  · have hkl1 : 1 ≤ (beBytes p.length).length := beBytes_length_pos _ (by omega)
    have hkl8 : (beBytes p.length).length ≤ 8 := by
      refine beBytes_length_le _ 8 ?_
      calc p.length < 2 ^ 64 := hlen
        _ = 256 ^ 8 := by norm_num
    have hbne : beBytes p.length ≠ [] := beBytes_ne_nil _ (by omega)
    have henc : listEnc p = (247 + (beBytes p.length).length) :: (beBytes p.length ++ p) := by
      simp only [listEnc, encodeLength, if_neg hshort]
      rw [List.cons_append]
    have hlel : (listEnc p).length = 1 + (beBytes p.length).length + p.length := by
      rw [henc]
      simp only [List.length_cons, List.length_append]
      omega
    rw [henc]
    rcases k with _ | j
    · simp only [List.take_zero]
      exact parseItem_nil_any fuel
    · rw [List.take_succ_cons]
      have hj : j < (beBytes p.length).length + p.length := by omega
      have hlbs : ((beBytes p.length ++ p).take j).length = j := by
        rw [List.length_take, List.length_append]
        omega
      rcases fuel with _ | f
      · exact parseItem_zero _
      · by_cases hjk : j < (beBytes p.length).length
        · refine parseItem_long_list_failk f (247 + (beBytes p.length).length)
            ((beBytes p.length ++ p).take j) (by omega) ?_
          rw [hlbs]
          omega
        · have hbk : 247 + (beBytes p.length).length - 247 = (beBytes p.length).length := by
            omega
          have htake : ((beBytes p.length ++ p).take j).take (beBytes p.length).length
              = beBytes p.length := by
            rw [List.take_take, min_eq_left (by omega), take_len_append]
          refine parseItem_long_list_faillen f (247 + (beBytes p.length).length)
            ((beBytes p.length ++ p).take j) (by omega) ?_ ?_ ?_
          · rw [hlbs]
            omega
          · obtain ⟨c, t, hct⟩ := List.exists_cons_of_ne_nil hbne
            obtain ⟨j', rfl⟩ : ∃ j', j = j' + 1 := ⟨j - 1, by omega⟩
            rw [hct, List.cons_append, List.take_succ_cons]
            have : c ≠ 0 := by
              have := beBytes_headI_ne_zero p.length (by omega)
              rw [hct] at this
              simpa using this
            simpa using this
          · rw [hbk, htake, beVal_beBytes, List.length_drop, hlbs]
            omega

/-! ## Sequencing helpers for entity payloads -/

theorem parseMany_cons_field (fuel : Nat) (e tail : List Nat) (it : Item) (its : List Item)
    (he : e ≠ [])
    (h1 : ∀ fuel' rest, 3 * e.length ≤ fuel' → parseItem fuel' (e ++ rest) = some (it, rest))
    (htail : ∀ f, tail.length < f → parseMany (parseItem fuel) f tail = some its)
    (hfuel : 3 * (e ++ tail).length ≤ fuel) :
    ∀ f, (e ++ tail).length < f → parseMany (parseItem fuel) f (e ++ tail) = some (it :: its) := by
  refine parseMany_append (parseItem fuel) e tail it its he ?_ htail
  refine h1 fuel tail ?_
  rw [List.length_append] at hfuel
  omega

theorem parseMany_one_field (fuel : Nat) (e : List Nat) (it : Item)
    (he : e ≠ [])
    (h1 : ∀ fuel' rest, 3 * e.length ≤ fuel' → parseItem fuel' (e ++ rest) = some (it, rest))
    (hfuel : 3 * e.length ≤ fuel) :
    ∀ f, e.length < f → parseMany (parseItem fuel) f e = some [it] := by
  intro f hf
  have h := parseMany_append (parseItem fuel) e [] it [] he
    (h1 fuel [] hfuel) (fun f' _ => parseMany_nil _ f') f
    (by rw [List.append_nil]; exact hf)
  rw [List.append_nil] at h
  exact h

/-! ## Field-level decoding of wire items

Modelled from the spec: an unsigned integer reads back from a byte-string
item carrying its minimal big-endian bytes (no leading zero, at most `size`
bytes for a `size`-byte machine integer); a string reads back from a
byte-string item; an optional string reads back from an empty list (absent)
or a one-element list (present). -/

def uintFrom (size : Nat) : Item → Option Nat
  | .str [] => some 0
  | .str (b :: bt) => if b ≠ 0 ∧ bt.length + 1 ≤ size then some (beVal (b :: bt)) else none
  | .list _ => none

def strFrom : Item → Option (List Nat)
  | .str s => some s
  | .list _ => none

def optFrom : Item → Option (Option (List Nat))
  | .list [] => some none
  | .list [x] => (strFrom x).map some
  | _ => none

theorem uintFrom_beBytes (size n : Nat) (h : n < 256 ^ size) :
    uintFrom size (.str (beBytes n)) = some n := by
  by_cases hz : n = 0
  · subst hz; rfl
  · obtain ⟨b, t, hbt⟩ := List.exists_cons_of_ne_nil (beBytes_ne_nil n hz)
    rw [hbt]
    simp only [uintFrom]
    rw [if_pos ?hc]
    case hc =>
      constructor
      · have := beBytes_headI_ne_zero n hz
        rw [hbt] at this
        simpa using this
      · have hlen := beBytes_length_le n size h
        rw [hbt] at hlen
        simpa using hlen
    rw [← hbt, beVal_beBytes]

/-- A well-formed byte-string field: byte values and a length that fits the
machine word, as in the Rust types (`Vec<u8>` or UTF-8 `String`). -/
def strOK (s : List Nat) : Prop := (∀ b ∈ s, b < 256) ∧ s.length < 2 ^ 64

instance (s : List Nat) : Decidable (strOK s) := by
  unfold strOK
  infer_instance

/-! ## The error taxonomy

Translated from `object.rs` 24-63: the `VerifyError` enumeration with
explicit discriminant 100 for the first variant and successive values for
the rest, and the conversion to a signed 8-bit integer (`value as i8`). -/

inductive VerifyError where
  | FoundNoMessage
  | EventNotMatch
  | InvalidReceiptProof
  | SerdeError
  | WrongClient
  | WrongConnectionId
  | WrongConnectionnNumber
  | WrongPortId
  | WrongCommonHexId
  | ConnectionsWrong
  | WrongConnectionCnt
  | WrongConnectionState
  | WrongConnectionCounterparty
  | WrongConnectionClient
  | WrongConnectionNextChannelNumber
  | WrongConnectionArgs
  | WrongChannelState
  | WrongChannel
  | WrongChannelArgs
  | WrongChannelSequence
  | WrongUnusedPacket
  | WrongPacketSequence
  | WrongPacketStatus
  | WrongPacketContent
  | WrongPacketArgs
deriving DecidableEq

/-- The discriminant of each failure reason as a signed integer
(`impl From<VerifyError> for i8`, `object.rs` 59-63). -/
def VerifyError.toI8 : VerifyError → Int
  | .FoundNoMessage => 100
  | .EventNotMatch => 101
  | .InvalidReceiptProof => 102
  | .SerdeError => 103
  | .WrongClient => 104
  | .WrongConnectionId => 105
  | .WrongConnectionnNumber => 106
  | .WrongPortId => 107
  | .WrongCommonHexId => 108
  | .ConnectionsWrong => 109
  | .WrongConnectionCnt => 110
  | .WrongConnectionState => 111
  | .WrongConnectionCounterparty => 112
  | .WrongConnectionClient => 113
  | .WrongConnectionNextChannelNumber => 114
  | .WrongConnectionArgs => 115
  | .WrongChannelState => 116
  | .WrongChannel => 117
  | .WrongChannelArgs => 118
  | .WrongChannelSequence => 119
  | .WrongUnusedPacket => 120
  | .WrongPacketSequence => 121
  | .WrongPacketStatus => 122
  | .WrongPacketContent => 123
  | .WrongPacketArgs => 124

/-! ## The enumerations `State` and `Ordering` -/

/-- Translated from `object.rs` 65-75: the six connection states with stable
numeric tags starting at 1 (`Unknown = 1` is the `Default`). -/
inductive State where
  | Unknown
  | Init
  | OpenTry
  | Open
  | Closed
  | Frozen
deriving DecidableEq

/-- The numeric tag of a state (the Rust `*self as u8` cast with the
discriminants of `object.rs` 67-75). -/
def State.tag : State → Nat
  | .Unknown => 1
  | .Init => 2
  | .OpenTry => 3
  | .Open => 4
  | .Closed => 5
  | .Frozen => 6

/-- Translated from `impl Encodable for State` (`object.rs` 77-83): a state
encodes as a one-element list holding its tag byte. -/
def State.toItem (s : State) : Item := .list [.str (beBytes (State.tag s))]

/-- The byte-level encoding of a state (`rlp::encode`). -/
def State.encode (s : State) : List Nat := listEnc (uintEnc (State.tag s))

/-- Translated from `impl Decodable for State` (`object.rs` 85-98): read the
first member of the list as a byte and match it against the closed tag set
1..6; any other tag is a decode error (`none`), never a default. -/
def State.fromItem : Item → Option State
  | .list (x :: _) =>
    (match uintFrom 1 x with
      | some 1 => some State.Unknown
      | some 2 => some State.Init
      | some 3 => some State.OpenTry
      | some 4 => some State.Open
      | some 5 => some State.Closed
      | some 6 => some State.Frozen
      | _ => none)
  | _ => none

/-- Byte-level decoding of a state (`rlp::decode::<State>`). -/
def State.decodeBytes (bs : List Nat) : Option State :=
  (rlpDecode bs).bind State.fromItem

/-- Translated from `object.rs` 100-107: the three channel orderings with
stable numeric tags starting at 1 (`Unknown = 1` is the `Default`). -/
inductive Ordering where
  | Unknown
  | Unordered
  | Ordered
deriving DecidableEq

/-- The numeric tag of an ordering (`*self as u8`). -/
def Ordering.tag : Ordering → Nat
  | .Unknown => 1
  | .Unordered => 2
  | .Ordered => 3

/-- Translated from `impl Encodable for Ordering` (`object.rs` 109-115). -/
def Ordering.toItem (o : Ordering) : Item := .list [.str (beBytes (Ordering.tag o))]

/-- The byte-level encoding of an ordering (`rlp::encode`). -/
def Ordering.encode (o : Ordering) : List Nat := listEnc (uintEnc (Ordering.tag o))

/-- Translated from `impl Decodable for Ordering` (`object.rs` 117-127):
tags 1..3 decode to the three variants, anything else is an error. -/
def Ordering.fromItem : Item → Option Ordering
  | .list (x :: _) =>
    (match uintFrom 1 x with
      | some 1 => some Ordering.Unknown
      | some 2 => some Ordering.Unordered
      | some 3 => some Ordering.Ordered
      | _ => none)
  | _ => none

/-- Byte-level decoding of an ordering (`rlp::decode::<Ordering>`). -/
def Ordering.decodeBytes (bs : List Nat) : Option Ordering :=
  (rlpDecode bs).bind Ordering.fromItem

theorem state_fromItem_toItem (s : State) : State.fromItem (State.toItem s) = some s := by
  cases s <;> rfl

theorem ordering_fromItem_toItem (o : Ordering) :
    Ordering.fromItem (Ordering.toItem o) = some o := by
  cases o <;> rfl

theorem parse_state (s : State) :
    ∀ fuel rest, 3 * (State.encode s).length ≤ fuel →
      parseItem fuel (State.encode s ++ rest) = some (State.toItem s, rest) := by
  intro fuel rest hfuel
  refine parse_listEnc (uintEnc (State.tag s)) [.str (beBytes (State.tag s))] ?_ ?_ fuel rest hfuel
  · cases s <;> decide
  · intro fuel' f h1 h2
    exact parseMany_one_field fuel' _ _ (strEnc_ne_nil _)
      (fun f'' r h'' => parse_uintEnc _ (by cases s <;> decide) f'' r h'') h1 f h2

theorem parse_ordering (o : Ordering) :
    ∀ fuel rest, 3 * (Ordering.encode o).length ≤ fuel →
      parseItem fuel (Ordering.encode o ++ rest) = some (Ordering.toItem o, rest) := by
  intro fuel rest hfuel
  refine parse_listEnc (uintEnc (Ordering.tag o)) [.str (beBytes (Ordering.tag o))] ?_ ?_ fuel rest hfuel
  · cases o <;> decide
  · intro fuel' f h1 h2
    exact parseMany_one_field fuel' _ _ (strEnc_ne_nil _)
      (fun f'' r h'' => parse_uintEnc _ (by cases o <;> decide) f'' r h'') h1 f h2

/-! ## Packet -/

/-- Translated from `object.rs` 159-169: one relayed packet. -/
structure Packet where
  sequence : Nat
  source_port_id : List Nat
  source_channel_id : List Nat
  destination_port_id : List Nat
  destination_channel_id : List Nat
  data : List Nat
  timeout_height : Nat
  timeout_timestamp : Nat
deriving DecidableEq

/-- The concatenated field encodings of a packet, in declaration order
(modelled from the spec: composite entities encode their fields in
declaration order). -/
def Packet.payload (p : Packet) : List Nat :=
  uintEnc p.sequence ++ (strEnc p.source_port_id ++ (strEnc p.source_channel_id ++
    (strEnc p.destination_port_id ++ (strEnc p.destination_channel_id ++ (strEnc p.data ++
      (uintEnc p.timeout_height ++ uintEnc p.timeout_timestamp))))))

/-- Byte-level encoding of a packet (`Object::encode` for `Packet`,
`object.rs` 186-189). -/
def Packet.encode (p : Packet) : List Nat := listEnc (Packet.payload p)

/-- The field items of a packet's wire list. -/
def Packet.fields (p : Packet) : List Item :=
  [.str (beBytes p.sequence), .str p.source_port_id, .str p.source_channel_id,
    .str p.destination_port_id, .str p.destination_channel_id, .str p.data,
    .str (beBytes p.timeout_height), .str (beBytes p.timeout_timestamp)]

/-- The wire item of a packet. -/
def Packet.toItem (p : Packet) : Item := .list (Packet.fields p)

/-- Modelled from the spec: structural decode of a packet from its wire
item, requiring exactly the declared field count and field types (the
derived `Decodable` expansion is not part of this repository; the spec
requires rejecting inputs that do not conform to the field-count and
field-type layout). -/
def Packet.fromItem : Item → Option Packet
  | .list [a, b, c, d, e, f, g, h] => do
    let seq ← uintFrom 2 a
    let sp ← strFrom b
    let sc ← strFrom c
    let dp ← strFrom d
    let dc ← strFrom e
    let dat ← strFrom f
    let th ← uintFrom 8 g
    let tt ← uintFrom 8 h
    some (Packet.mk seq sp sc dp dc dat th tt)
  | _ => none

/-- Byte-level decoding of a packet (`Object::decode` for `Packet`,
`object.rs` 191-193): any rlp-level failure collapses to `SerdeError`. -/
def Packet.decode (bs : List Nat) : Except VerifyError Packet :=
  match rlpDecode bs with
  | some it =>
    match Packet.fromItem it with
    | some p => .ok p
    | none => .error .SerdeError
  | none => .error .SerdeError

/-- Well-formedness of a packet: the numeric fields fit their Rust machine
widths (`u16` and `u64`), the byte-string fields hold bytes and have
machine-word lengths, and the total payload length fits a machine word —
exactly the values constructible in the Rust data model. -/
def Packet.WF (p : Packet) : Prop :=
  p.sequence < 2 ^ 16 ∧ p.timeout_height < 2 ^ 64 ∧ p.timeout_timestamp < 2 ^ 64 ∧
    strOK p.source_port_id ∧ strOK p.source_channel_id ∧ strOK p.destination_port_id ∧
    strOK p.destination_channel_id ∧ strOK p.data ∧ (Packet.payload p).length < 2 ^ 64

instance (p : Packet) : Decidable (Packet.WF p) := by
  unfold Packet.WF
  infer_instance

/-- Translated from `Packet::equal_unless_sequence` (`object.rs` 196-216):
equality of every field except `sequence`. -/
def Packet.equal_unless_sequence (p q : Packet) : Bool :=
  (p.source_port_id == q.source_port_id) &&
    (p.source_channel_id == q.source_channel_id) &&
    (p.destination_port_id == q.destination_port_id) &&
    (p.destination_channel_id == q.destination_channel_id) &&
    (p.data == q.data) &&
    (p.timeout_height == q.timeout_height) &&
    (p.timeout_timestamp == q.timeout_timestamp)

theorem parseMany_packet (p : Packet) (h : Packet.WF p) :
    ∀ fuel f, 3 * (Packet.payload p).length ≤ fuel → (Packet.payload p).length < f →
      parseMany (parseItem fuel) f (Packet.payload p) = some (Packet.fields p) := by
  obtain ⟨hseq, hth, htt, ⟨-, hl1⟩, ⟨-, hl2⟩, ⟨-, hl3⟩, ⟨-, hl4⟩, ⟨-, hl5⟩, -⟩ := h
  intro fuel f hfuel hf
  have hseq64 : p.sequence < 2 ^ 64 := by omega
  unfold Packet.payload at hfuel hf ⊢
  simp only [uintEnc] at hfuel hf ⊢
  simp only [List.length_append] at hfuel hf
  have s8 : ∀ f', (strEnc (beBytes p.timeout_timestamp)).length < f' →
      parseMany (parseItem fuel) f' (strEnc (beBytes p.timeout_timestamp))
        = some [.str (beBytes p.timeout_timestamp)] :=
    parseMany_one_field fuel _ _ (strEnc_ne_nil _)
      (fun f'' r h'' => parse_uintEnc _ htt f'' r h'') (by omega)
  have s7 : ∀ f', (strEnc (beBytes p.timeout_height) ++ strEnc (beBytes p.timeout_timestamp)).length < f' →
      parseMany (parseItem fuel) f' (strEnc (beBytes p.timeout_height) ++ strEnc (beBytes p.timeout_timestamp))
        = some [.str (beBytes p.timeout_height), .str (beBytes p.timeout_timestamp)] :=
    parseMany_cons_field fuel _ _ _ _ (strEnc_ne_nil _)
      (fun f'' r h'' => parse_uintEnc _ hth f'' r h'') s8
      (by simp only [List.length_append]; omega)
  have s6 : ∀ f', (strEnc p.data ++ (strEnc (beBytes p.timeout_height) ++ strEnc (beBytes p.timeout_timestamp))).length < f' →
      parseMany (parseItem fuel) f'
        (strEnc p.data ++ (strEnc (beBytes p.timeout_height) ++ strEnc (beBytes p.timeout_timestamp)))
        = some [.str p.data, .str (beBytes p.timeout_height), .str (beBytes p.timeout_timestamp)] :=
    parseMany_cons_field fuel _ _ _ _ (strEnc_ne_nil _)
      (fun f'' r h'' => parse_strEnc _ hl5 f'' r h'') s7
      (by simp only [List.length_append]; omega)
  have s5 : ∀ f', (strEnc p.destination_channel_id ++ (strEnc p.data ++
        (strEnc (beBytes p.timeout_height) ++ strEnc (beBytes p.timeout_timestamp)))).length < f' →
      parseMany (parseItem fuel) f' (strEnc p.destination_channel_id ++ (strEnc p.data ++
        (strEnc (beBytes p.timeout_height) ++ strEnc (beBytes p.timeout_timestamp))))
        = some [.str p.destination_channel_id, .str p.data, .str (beBytes p.timeout_height),
            .str (beBytes p.timeout_timestamp)] :=
    parseMany_cons_field fuel _ _ _ _ (strEnc_ne_nil _)
      (fun f'' r h'' => parse_strEnc _ hl4 f'' r h'') s6
      (by simp only [List.length_append]; omega)
  have s4 : ∀ f', (strEnc p.destination_port_id ++ (strEnc p.destination_channel_id ++
        (strEnc p.data ++ (strEnc (beBytes p.timeout_height) ++ strEnc (beBytes p.timeout_timestamp))))).length < f' →
      parseMany (parseItem fuel) f' (strEnc p.destination_port_id ++
        (strEnc p.destination_channel_id ++ (strEnc p.data ++
          (strEnc (beBytes p.timeout_height) ++ strEnc (beBytes p.timeout_timestamp)))))
        = some [.str p.destination_port_id, .str p.destination_channel_id, .str p.data,
            .str (beBytes p.timeout_height), .str (beBytes p.timeout_timestamp)] :=
    parseMany_cons_field fuel _ _ _ _ (strEnc_ne_nil _)
      (fun f'' r h'' => parse_strEnc _ hl3 f'' r h'') s5
      (by simp only [List.length_append]; omega)
  have s3 : ∀ f', (strEnc p.source_channel_id ++ (strEnc p.destination_port_id ++
        (strEnc p.destination_channel_id ++ (strEnc p.data ++
          (strEnc (beBytes p.timeout_height) ++ strEnc (beBytes p.timeout_timestamp)))))).length < f' →
      parseMany (parseItem fuel) f' (strEnc p.source_channel_id ++
        (strEnc p.destination_port_id ++ (strEnc p.destination_channel_id ++
          (strEnc p.data ++ (strEnc (beBytes p.timeout_height) ++ strEnc (beBytes p.timeout_timestamp))))))
        = some [.str p.source_channel_id, .str p.destination_port_id,
            .str p.destination_channel_id, .str p.data, .str (beBytes p.timeout_height),
            .str (beBytes p.timeout_timestamp)] :=
    parseMany_cons_field fuel _ _ _ _ (strEnc_ne_nil _)
      (fun f'' r h'' => parse_strEnc _ hl2 f'' r h'') s4
      (by simp only [List.length_append]; omega)
  have s2 : ∀ f', (strEnc p.source_port_id ++ (strEnc p.source_channel_id ++
        (strEnc p.destination_port_id ++ (strEnc p.destination_channel_id ++
          (strEnc p.data ++ (strEnc (beBytes p.timeout_height) ++ strEnc (beBytes p.timeout_timestamp))))))).length < f' →
      parseMany (parseItem fuel) f' (strEnc p.source_port_id ++ (strEnc p.source_channel_id ++
        (strEnc p.destination_port_id ++ (strEnc p.destination_channel_id ++
          (strEnc p.data ++ (strEnc (beBytes p.timeout_height) ++ strEnc (beBytes p.timeout_timestamp)))))))
        = some [.str p.source_port_id, .str p.source_channel_id, .str p.destination_port_id,
            .str p.destination_channel_id, .str p.data, .str (beBytes p.timeout_height),
            .str (beBytes p.timeout_timestamp)] :=
    parseMany_cons_field fuel _ _ _ _ (strEnc_ne_nil _)
      (fun f'' r h'' => parse_strEnc _ hl1 f'' r h'') s3
      (by simp only [List.length_append]; omega)
  exact parseMany_cons_field fuel _ _ _ _ (strEnc_ne_nil _)
    (fun f'' r h'' => parse_uintEnc _ hseq64 f'' r h'') s2
    (by simp only [List.length_append]; omega) f
    (by simp only [List.length_append]; omega)

theorem parse_packet (p : Packet) (h : Packet.WF p) :
    ∀ fuel rest, 3 * (Packet.encode p).length ≤ fuel →
      parseItem fuel (Packet.encode p ++ rest) = some (Packet.toItem p, rest) := by
  intro fuel rest hfuel
  exact parse_listEnc (Packet.payload p) (Packet.fields p) h.2.2.2.2.2.2.2.2
    (parseMany_packet p h) fuel rest hfuel

theorem packet_fromItem_toItem (p : Packet) (h : Packet.WF p) :
    Packet.fromItem (Packet.toItem p) = some p := by
  obtain ⟨hseq, hth, htt, -, -, -, -, -, -⟩ := h
  have e1 : uintFrom 2 (.str (beBytes p.sequence)) = some p.sequence :=
    uintFrom_beBytes 2 _ (by norm_num at hseq ⊢; omega)
  have e2 : uintFrom 8 (.str (beBytes p.timeout_height)) = some p.timeout_height :=
    uintFrom_beBytes 8 _ (by norm_num at hth ⊢; omega)
  have e3 : uintFrom 8 (.str (beBytes p.timeout_timestamp)) = some p.timeout_timestamp :=
    uintFrom_beBytes 8 _ (by norm_num at htt ⊢; omega)
  simp only [Packet.toItem, Packet.fields, Packet.fromItem, e1, e2, e3, strFrom,
    Option.bind_eq_bind, Option.some_bind]

/-- Round trip at byte level for packets. -/
theorem packet_decode_encode (p : Packet) (h : Packet.WF p) :
    Packet.decode (Packet.encode p) = .ok p := by
  have hparse := parse_packet p h (3 * (Packet.encode p).length) [] le_rfl
  rw [List.append_nil] at hparse
  unfold Packet.decode rlpDecode
  rw [hparse]
  simp only [packet_fromItem_toItem p h]

/-! ## Sequences of strings and optional strings on the wire -/

/-- The concatenated encodings of a sequence of byte strings. -/
def strsPayload (l : List (List Nat)) : List Nat := (l.map strEnc).flatten

theorem strsPayload_nil : strsPayload [] = [] := rfl

theorem strsPayload_cons (x : List Nat) (xs : List (List Nat)) :
    strsPayload (x :: xs) = strEnc x ++ strsPayload xs := by
  simp [strsPayload]

theorem parseMany_strs (l : List (List Nat)) (hl : ∀ x ∈ l, strOK x) :
    ∀ fuel f, 3 * (strsPayload l).length ≤ fuel → (strsPayload l).length < f →
      parseMany (parseItem fuel) f (strsPayload l) = some (l.map Item.str) := by
  induction l with
  | nil =>
    intro fuel f _ _
    simpa [strsPayload] using parseMany_nil (parseItem fuel) f
  | cons x xs ih =>
    intro fuel f hfuel hf
    have hx : strOK x := hl x (by simp)
    have hxs : ∀ y ∈ xs, strOK y := fun y hy => hl y (by simp [hy])
    rw [strsPayload_cons] at hfuel hf ⊢
    refine parseMany_cons_field fuel _ _ _ _ (strEnc_ne_nil _)
      (fun f' r h' => parse_strEnc _ hx.2 f' r h') ?_ hfuel f hf
    intro f' hf'
    refine ih hxs fuel f' ?_ hf'
    rw [List.length_append] at hfuel
    omega

/-- Parsing a whole encoded sequence of byte strings. -/
theorem parse_strs (l : List (List Nat)) (hl : ∀ x ∈ l, strOK x)
    (hp : (strsPayload l).length < 2 ^ 64) :
    ∀ fuel rest, 3 * (listEnc (strsPayload l)).length ≤ fuel →
      parseItem fuel (listEnc (strsPayload l) ++ rest) = some (.list (l.map Item.str), rest) :=
  parse_listEnc _ _ hp (parseMany_strs l hl)

/-- Decode every member of a wire list as a byte string (the derived
decoding of a sequence-of-strings field, which reads all members). -/
def strsFrom : List Item → Option (List (List Nat))
  | [] => some []
  | x :: xs => do
    let s ← strFrom x
    let rest ← strsFrom xs
    some (s :: rest)

theorem strsFrom_map (fs : List (List Nat)) : strsFrom (fs.map Item.str) = some fs := by
  induction fs with
  | nil => rfl
  | cons x xs ih =>
    simp only [List.map_cons, strsFrom, strFrom, ih, Option.bind_eq_bind, Option.some_bind]

/-- Modelled from the spec: an absent optional string encodes as the empty
marker (the empty list), a present one as a one-element list holding the
string. -/
def optEnc : Option (List Nat) → List Nat
  | none => listEnc []
  | some s => listEnc (strEnc s)

/-- The wire item of an optional string. -/
def optItem : Option (List Nat) → Item
  | none => .list []
  | some s => .list [.str s]

theorem optEnc_ne_nil (o : Option (List Nat)) : optEnc o ≠ [] := by
  cases o
  · exact listEnc_ne_nil _
  · exact listEnc_ne_nil _

theorem optFrom_optItem (o : Option (List Nat)) : optFrom (optItem o) = some o := by
  cases o <;> rfl

theorem parse_optEnc (o : Option (List Nat))
    (ho : ∀ s ∈ o.toList, strOK s ∧ (strEnc s).length < 2 ^ 64) :
    ∀ fuel rest, 3 * (optEnc o).length ≤ fuel →
      parseItem fuel (optEnc o ++ rest) = some (optItem o, rest) := by
  cases o with
  | none =>
    intro fuel rest hfuel
    refine parse_listEnc [] [] (by norm_num) ?_ fuel rest hfuel
    intro fuel' f _ _
    exact parseMany_nil _ f
  | some s =>
    intro fuel rest hfuel
    obtain ⟨hs, hse⟩ := ho s (by simp)
    refine parse_listEnc (strEnc s) [.str s] hse ?_ fuel rest hfuel
    intro fuel' f h1 h2
    exact parseMany_one_field fuel' _ _ (strEnc_ne_nil _)
      (fun f' r h' => parse_strEnc _ hs.2 f' r h') h1 f h2

/-! ## ConnectionCounterparty -/

/-- Translated from `object.rs` 129-134. -/
structure ConnectionCounterparty where
  client_id : List Nat
  connection_id : Option (List Nat)
  commitment_prefix : List Nat
deriving DecidableEq

def ConnectionCounterparty.payload : ConnectionCounterparty → List Nat
  | ⟨cid, conn, pfx⟩ => strEnc cid ++ (optEnc conn ++ strEnc pfx)

def ConnectionCounterparty.fields : ConnectionCounterparty → List Item
  | ⟨cid, conn, pfx⟩ => [.str cid, optItem conn, .str pfx]

def ConnectionCounterparty.toItem (c : ConnectionCounterparty) : Item :=
  .list (ConnectionCounterparty.fields c)

/-- Byte-level encoding (the derived `Encodable`, fields in declaration
order). -/
def ConnectionCounterparty.encode (c : ConnectionCounterparty) : List Nat :=
  listEnc (ConnectionCounterparty.payload c)

/-- Modelled from the spec: structural decode with the exact field count
and field types. -/
def ConnectionCounterparty.fromItem : Item → Option ConnectionCounterparty
  | .list [a, b, c] => do
    let cid ← strFrom a
    let conn ← optFrom b
    let pfx ← strFrom c
    some (ConnectionCounterparty.mk cid conn pfx)
  | _ => none

/-- Byte-level decoding (`rlp::decode`). -/
def ConnectionCounterparty.decodeBytes (bs : List Nat) : Option ConnectionCounterparty :=
  (rlpDecode bs).bind ConnectionCounterparty.fromItem

def ConnectionCounterparty.WF : ConnectionCounterparty → Prop
  | ⟨cid, conn, pfx⟩ =>
    strOK cid ∧ (∀ s ∈ conn.toList, strOK s ∧ (strEnc s).length < 2 ^ 64) ∧ strOK pfx ∧
      (strEnc cid ++ (optEnc conn ++ strEnc pfx)).length < 2 ^ 64

instance : (c : ConnectionCounterparty) → Decidable (ConnectionCounterparty.WF c)
  | ⟨cid, conn, pfx⟩ => by
    unfold ConnectionCounterparty.WF
    infer_instance

theorem parseMany_cc (c : ConnectionCounterparty) (h : ConnectionCounterparty.WF c) :
    ∀ fuel f, 3 * (ConnectionCounterparty.payload c).length ≤ fuel →
      (ConnectionCounterparty.payload c).length < f →
      parseMany (parseItem fuel) f (ConnectionCounterparty.payload c)
        = some (ConnectionCounterparty.fields c) := by
  obtain ⟨cid, conn, pfx⟩ := c
  obtain ⟨hcid, hconn, hpfx, -⟩ := h
  intro fuel f hfuel hf
  simp only [ConnectionCounterparty.payload] at hfuel hf ⊢
  simp only [ConnectionCounterparty.fields]
  simp only [List.length_append] at hfuel hf
  have s3 : ∀ f', (strEnc pfx).length < f' →
      parseMany (parseItem fuel) f' (strEnc pfx) = some [.str pfx] :=
    parseMany_one_field fuel _ _ (strEnc_ne_nil _)
      (fun f' r h' => parse_strEnc _ hpfx.2 f' r h') (by omega)
  have s2 : ∀ f', (optEnc conn ++ strEnc pfx).length < f' →
      parseMany (parseItem fuel) f' (optEnc conn ++ strEnc pfx)
        = some [optItem conn, .str pfx] :=
    parseMany_cons_field fuel _ _ _ _ (optEnc_ne_nil _)
      (fun f' r h' => parse_optEnc conn hconn f' r h') s3
      (by simp only [List.length_append]; omega)
  exact parseMany_cons_field fuel _ _ _ _ (strEnc_ne_nil _)
    (fun f' r h' => parse_strEnc _ hcid.2 f' r h') s2
    (by simp only [List.length_append]; omega) f
    (by simp only [List.length_append]; omega)

theorem cc_payload_lt (c : ConnectionCounterparty) (h : ConnectionCounterparty.WF c) :
    (ConnectionCounterparty.payload c).length < 2 ^ 64 := by
  obtain ⟨cid, conn, pfx⟩ := c
  exact h.2.2.2

theorem parse_cc (c : ConnectionCounterparty) (h : ConnectionCounterparty.WF c) :
    ∀ fuel rest, 3 * (ConnectionCounterparty.encode c).length ≤ fuel →
      parseItem fuel (ConnectionCounterparty.encode c ++ rest)
        = some (ConnectionCounterparty.toItem c, rest) :=
  parse_listEnc _ _ (cc_payload_lt c h) (parseMany_cc c h)

theorem cc_fromItem_toItem (c : ConnectionCounterparty) :
    ConnectionCounterparty.fromItem (ConnectionCounterparty.toItem c) = some c := by
  obtain ⟨cid, conn, pfx⟩ := c
  simp only [ConnectionCounterparty.toItem, ConnectionCounterparty.fields,
    ConnectionCounterparty.fromItem, strFrom, optFrom_optItem,
    Option.bind_eq_bind, Option.some_bind]

/-- Byte-level round trip for `ConnectionCounterparty`. -/
theorem cc_decode_encode (c : ConnectionCounterparty)
    (h : ConnectionCounterparty.WF c) :
    ConnectionCounterparty.decodeBytes (ConnectionCounterparty.encode c) = some c := by
  have hparse := parse_cc c h (3 * (ConnectionCounterparty.encode c).length) [] le_rfl
  rw [List.append_nil] at hparse
  unfold ConnectionCounterparty.decodeBytes rlpDecode
  rw [hparse]
  simp only [Option.some_bind, cc_fromItem_toItem]

/-! ## ChannelCounterparty -/

/-- Translated from `object.rs` 146-150. -/
structure ChannelCounterparty where
  port_id : List Nat
  channel_id : List Nat
deriving DecidableEq

def ChannelCounterparty.payload : ChannelCounterparty → List Nat
  | ⟨pid, chid⟩ => strEnc pid ++ strEnc chid

def ChannelCounterparty.fields : ChannelCounterparty → List Item
  | ⟨pid, chid⟩ => [.str pid, .str chid]

def ChannelCounterparty.toItem (c : ChannelCounterparty) : Item :=
  .list (ChannelCounterparty.fields c)

def ChannelCounterparty.encode (c : ChannelCounterparty) : List Nat :=
  listEnc (ChannelCounterparty.payload c)

def ChannelCounterparty.fromItem : Item → Option ChannelCounterparty
  | .list [a, b] => do
    let pid ← strFrom a
    let chid ← strFrom b
    some (ChannelCounterparty.mk pid chid)
  | _ => none

def ChannelCounterparty.WF : ChannelCounterparty → Prop
  | ⟨pid, chid⟩ => strOK pid ∧ strOK chid ∧ (strEnc pid ++ strEnc chid).length < 2 ^ 64

instance : (c : ChannelCounterparty) → Decidable (ChannelCounterparty.WF c)
  | ⟨pid, chid⟩ => by
    unfold ChannelCounterparty.WF
    infer_instance

theorem parseMany_ccp (c : ChannelCounterparty) (h : ChannelCounterparty.WF c) :
    ∀ fuel f, 3 * (ChannelCounterparty.payload c).length ≤ fuel →
      (ChannelCounterparty.payload c).length < f →
      parseMany (parseItem fuel) f (ChannelCounterparty.payload c)
        = some (ChannelCounterparty.fields c) := by
  obtain ⟨pid, chid⟩ := c
  obtain ⟨hpid, hchid, -⟩ := h
  intro fuel f hfuel hf
  simp only [ChannelCounterparty.payload] at hfuel hf ⊢
  simp only [ChannelCounterparty.fields]
  simp only [List.length_append] at hfuel hf
  have s2 : ∀ f', (strEnc chid).length < f' →
      parseMany (parseItem fuel) f' (strEnc chid) = some [.str chid] :=
    parseMany_one_field fuel _ _ (strEnc_ne_nil _)
      (fun f' r h' => parse_strEnc _ hchid.2 f' r h') (by omega)
  exact parseMany_cons_field fuel _ _ _ _ (strEnc_ne_nil _)
    (fun f' r h' => parse_strEnc _ hpid.2 f' r h') s2
    (by simp only [List.length_append]; omega) f
    (by simp only [List.length_append]; omega)

theorem ccp_payload_lt (c : ChannelCounterparty) (h : ChannelCounterparty.WF c) :
    (ChannelCounterparty.payload c).length < 2 ^ 64 := by
  obtain ⟨pid, chid⟩ := c
  exact h.2.2

theorem parse_ccp (c : ChannelCounterparty) (h : ChannelCounterparty.WF c) :
    ∀ fuel rest, 3 * (ChannelCounterparty.encode c).length ≤ fuel →
      parseItem fuel (ChannelCounterparty.encode c ++ rest)
        = some (ChannelCounterparty.toItem c, rest) :=
  parse_listEnc _ _ (ccp_payload_lt c h) (parseMany_ccp c h)

theorem ccp_fromItem_toItem (c : ChannelCounterparty) :
    ChannelCounterparty.fromItem (ChannelCounterparty.toItem c) = some c := by
  obtain ⟨pid, chid⟩ := c
  simp only [ChannelCounterparty.toItem, ChannelCounterparty.fields,
    ChannelCounterparty.fromItem, strFrom, Option.bind_eq_bind, Option.some_bind]

/-! ## Version -/

/-- Translated from `object.rs` 218-222. -/
structure Version where
  identifier : List Nat
  features : List (List Nat)
deriving DecidableEq

def Version.payload : Version → List Nat
  | ⟨id, fs⟩ => strEnc id ++ listEnc (strsPayload fs)

def Version.fields : Version → List Item
  | ⟨id, fs⟩ => [.str id, .list (fs.map Item.str)]

def Version.toItem (v : Version) : Item := .list (Version.fields v)

def Version.encode (v : Version) : List Nat := listEnc (Version.payload v)

/-- Modelled from the spec: structural decode with the exact field count
and field types; the feature sequence reads every member as a string. -/
def Version.fromItem : Item → Option Version
  | .list [a, b] => do
    let id ← strFrom a
    let fs ← (match b with
      | .list l => strsFrom l
      | .str _ => none)
    some (Version.mk id fs)
  | _ => none

def Version.WF : Version → Prop
  | ⟨id, fs⟩ =>
    strOK id ∧ (∀ x ∈ fs, strOK x) ∧ (strsPayload fs).length < 2 ^ 64 ∧
      (strEnc id ++ listEnc (strsPayload fs)).length < 2 ^ 64

instance : (v : Version) → Decidable (Version.WF v)
  | ⟨id, fs⟩ => by
    unfold Version.WF
    infer_instance

theorem parseMany_version (v : Version) (h : Version.WF v) :
    ∀ fuel f, 3 * (Version.payload v).length ≤ fuel → (Version.payload v).length < f →
      parseMany (parseItem fuel) f (Version.payload v) = some (Version.fields v) := by
  obtain ⟨id, fs⟩ := v
  obtain ⟨hid, hfs, hfsp, -⟩ := h
  intro fuel f hfuel hf
  simp only [Version.payload] at hfuel hf ⊢
  simp only [Version.fields]
  simp only [List.length_append] at hfuel hf
  have s2 : ∀ f', (listEnc (strsPayload fs)).length < f' →
      parseMany (parseItem fuel) f' (listEnc (strsPayload fs))
        = some [.list (fs.map Item.str)] :=
    parseMany_one_field fuel _ _ (listEnc_ne_nil _)
      (fun f' r h' => parse_strs fs hfs hfsp f' r h') (by omega)
  exact parseMany_cons_field fuel _ _ _ _ (strEnc_ne_nil _)
    (fun f' r h' => parse_strEnc _ hid.2 f' r h') s2
    (by simp only [List.length_append]; omega) f
    (by simp only [List.length_append]; omega)

theorem version_payload_lt (v : Version) (h : Version.WF v) :
    (Version.payload v).length < 2 ^ 64 := by
  obtain ⟨id, fs⟩ := v
  exact h.2.2.2

theorem parse_version (v : Version) (h : Version.WF v) :
    ∀ fuel rest, 3 * (Version.encode v).length ≤ fuel →
      parseItem fuel (Version.encode v ++ rest) = some (Version.toItem v, rest) :=
  parse_listEnc _ _ (version_payload_lt v h) (parseMany_version v h)

theorem version_fromItem_toItem (v : Version) :
    Version.fromItem (Version.toItem v) = some v := by
  obtain ⟨id, fs⟩ := v
  simp only [Version.toItem, Version.fields, Version.fromItem, strFrom, strsFrom_map,
    Option.bind_eq_bind, Option.some_bind]

theorem version_encode_ne_nil (v : Version) : Version.encode v ≠ [] := listEnc_ne_nil _

/-- Decode every member of a wire list as a `Version`. -/
def versionsFrom : List Item → Option (List Version)
  | [] => some []
  | x :: xs => do
    let v ← Version.fromItem x
    let rest ← versionsFrom xs
    some (v :: rest)

theorem versionsFrom_map (vs : List Version) :
    versionsFrom (vs.map Version.toItem) = some vs := by
  induction vs with
  | nil => rfl
  | cons v vs ih =>
    simp only [List.map_cons, versionsFrom, version_fromItem_toItem, ih,
      Option.bind_eq_bind, Option.some_bind]

/-- The concatenated encodings of a sequence of versions. -/
def versionsPayload (vs : List Version) : List Nat := (vs.map Version.encode).flatten

theorem versionsPayload_nil : versionsPayload [] = [] := rfl

theorem versionsPayload_cons (v : Version) (vs : List Version) :
    versionsPayload (v :: vs) = Version.encode v ++ versionsPayload vs := by
  simp [versionsPayload]

theorem parseMany_versions (vs : List Version) (h : ∀ v ∈ vs, Version.WF v) :
    ∀ fuel f, 3 * (versionsPayload vs).length ≤ fuel → (versionsPayload vs).length < f →
      parseMany (parseItem fuel) f (versionsPayload vs) = some (vs.map Version.toItem) := by
  induction vs with
  | nil =>
    intro fuel f _ _
    simpa [versionsPayload] using parseMany_nil (parseItem fuel) f
  | cons v vs ih =>
    intro fuel f hfuel hf
    have hv : Version.WF v := h v (by simp)
    have hvs : ∀ w ∈ vs, Version.WF w := fun w hw => h w (by simp [hw])
    rw [versionsPayload_cons] at hfuel hf ⊢
    refine parseMany_cons_field fuel _ _ _ _ (version_encode_ne_nil v)
      (fun f' r h' => parse_version v hv f' r h') ?_ hfuel f hf
    intro f' hf'
    refine ih hvs fuel f' ?_ hf'
    rw [List.length_append] at hfuel
    omega

/-! ## ConnectionEnd -/

/-- Translated from `object.rs` 233-240. -/
structure ConnectionEnd where
  state : State
  client_id : List Nat
  counterparty : ConnectionCounterparty
  delay_period : Nat
  versions : List Version
deriving DecidableEq

def ConnectionEnd.payload : ConnectionEnd → List Nat
  | ⟨st, cid, cp, dp, vs⟩ =>
    State.encode st ++ (strEnc cid ++ (ConnectionCounterparty.encode cp ++
      (uintEnc dp ++ listEnc (versionsPayload vs))))

def ConnectionEnd.fields : ConnectionEnd → List Item
  | ⟨st, cid, cp, dp, vs⟩ =>
    [State.toItem st, .str cid, ConnectionCounterparty.toItem cp, .str (beBytes dp),
      .list (vs.map Version.toItem)]

def ConnectionEnd.toItem (c : ConnectionEnd) : Item := .list (ConnectionEnd.fields c)

/-- Byte-level encoding of a connection end (`Object::encode`,
`object.rs` 254-257). -/
def ConnectionEnd.encode (c : ConnectionEnd) : List Nat := listEnc (ConnectionEnd.payload c)

/-- Modelled from the spec: structural decode with the exact field count
and field types. -/
def ConnectionEnd.fromItem : Item → Option ConnectionEnd
  | .list [a, b, c, d, e] => do
    let st ← State.fromItem a
    let cid ← strFrom b
    let cp ← ConnectionCounterparty.fromItem c
    let dp ← uintFrom 8 d
    let vs ← (match e with
      | .list l => versionsFrom l
      | .str _ => none)
    some (ConnectionEnd.mk st cid cp dp vs)
  | _ => none

/-- Byte-level decoding of a connection end (`Object::decode`,
`object.rs` 259-261): any rlp-level failure collapses to `SerdeError`. -/
def ConnectionEnd.decode (bs : List Nat) : Except VerifyError ConnectionEnd :=
  match rlpDecode bs with
  | some it =>
    match ConnectionEnd.fromItem it with
    | some c => .ok c
    | none => .error .SerdeError
  | none => .error .SerdeError

def ConnectionEnd.WF : ConnectionEnd → Prop
  | ⟨st, cid, cp, dp, vs⟩ =>
    strOK cid ∧ ConnectionCounterparty.WF cp ∧ dp < 2 ^ 64 ∧ (∀ v ∈ vs, Version.WF v) ∧
      (versionsPayload vs).length < 2 ^ 64 ∧
      (State.encode st ++ (strEnc cid ++ (ConnectionCounterparty.encode cp ++
        (uintEnc dp ++ listEnc (versionsPayload vs))))).length < 2 ^ 64

instance : (c : ConnectionEnd) → Decidable (ConnectionEnd.WF c)
  | ⟨st, cid, cp, dp, vs⟩ => by
    unfold ConnectionEnd.WF
    infer_instance

theorem parseMany_ce (c : ConnectionEnd) (h : ConnectionEnd.WF c) :
    ∀ fuel f, 3 * (ConnectionEnd.payload c).length ≤ fuel →
      (ConnectionEnd.payload c).length < f →
      parseMany (parseItem fuel) f (ConnectionEnd.payload c)
        = some (ConnectionEnd.fields c) := by
  obtain ⟨st, cid, cp, dp, vs⟩ := c
  obtain ⟨hcid, hcp, hdp, hvs, hvsp, -⟩ := h
  intro fuel f hfuel hf
  simp only [ConnectionEnd.payload] at hfuel hf ⊢
  simp only [ConnectionEnd.fields]
  simp only [State.encode] at hfuel hf ⊢
  simp only [List.length_append] at hfuel hf
  have s5 : ∀ f', (listEnc (versionsPayload vs)).length < f' →
      parseMany (parseItem fuel) f' (listEnc (versionsPayload vs))
        = some [.list (vs.map Version.toItem)] :=
    parseMany_one_field fuel _ _ (listEnc_ne_nil _)
      (fun f' r h' => parse_listEnc _ _ hvsp (parseMany_versions vs hvs) f' r h')
      (by omega)
  have s4 : ∀ f', (uintEnc dp ++ listEnc (versionsPayload vs)).length < f' →
      parseMany (parseItem fuel) f' (uintEnc dp ++ listEnc (versionsPayload vs))
        = some [.str (beBytes dp), .list (vs.map Version.toItem)] :=
    parseMany_cons_field fuel _ _ _ _ (strEnc_ne_nil _)
      (fun f' r h' => parse_uintEnc _ hdp f' r h') s5
      (by simp only [List.length_append]; omega)
  have s3 : ∀ f', (ConnectionCounterparty.encode cp ++
        (uintEnc dp ++ listEnc (versionsPayload vs))).length < f' →
      parseMany (parseItem fuel) f' (ConnectionCounterparty.encode cp ++
        (uintEnc dp ++ listEnc (versionsPayload vs)))
        = some [ConnectionCounterparty.toItem cp, .str (beBytes dp),
            .list (vs.map Version.toItem)] :=
    parseMany_cons_field fuel _ _ _ _ (listEnc_ne_nil _)
      (fun f' r h' => parse_cc cp hcp f' r h') s4
      (by simp only [List.length_append]; omega)
  have s2 : ∀ f', (strEnc cid ++ (ConnectionCounterparty.encode cp ++
        (uintEnc dp ++ listEnc (versionsPayload vs)))).length < f' →
      parseMany (parseItem fuel) f' (strEnc cid ++ (ConnectionCounterparty.encode cp ++
        (uintEnc dp ++ listEnc (versionsPayload vs))))
        = some [.str cid, ConnectionCounterparty.toItem cp, .str (beBytes dp),
            .list (vs.map Version.toItem)] :=
    parseMany_cons_field fuel _ _ _ _ (strEnc_ne_nil _)
      (fun f' r h' => parse_strEnc _ hcid.2 f' r h') s3
      (by simp only [List.length_append]; omega)
  exact parseMany_cons_field fuel _ _ _ _ (listEnc_ne_nil _)
    (fun f' r h' => parse_state st f' r h') s2
    (by simp only [List.length_append]; omega) f
    (by simp only [List.length_append]; omega)

theorem ce_payload_lt (c : ConnectionEnd) (h : ConnectionEnd.WF c) :
    (ConnectionEnd.payload c).length < 2 ^ 64 := by
  obtain ⟨st, cid, cp, dp, vs⟩ := c
  exact h.2.2.2.2.2

theorem parse_ce (c : ConnectionEnd) (h : ConnectionEnd.WF c) :
    ∀ fuel rest, 3 * (ConnectionEnd.encode c).length ≤ fuel →
      parseItem fuel (ConnectionEnd.encode c ++ rest) = some (ConnectionEnd.toItem c, rest) :=
  parse_listEnc _ _ (ce_payload_lt c h) (parseMany_ce c h)

theorem ce_fromItem_toItem (c : ConnectionEnd) (h : ConnectionEnd.WF c) :
    ConnectionEnd.fromItem (ConnectionEnd.toItem c) = some c := by
  obtain ⟨st, cid, cp, dp, vs⟩ := c
  obtain ⟨-, -, hdp, -, -, -⟩ := h
  have e1 : uintFrom 8 (.str (beBytes dp)) = some dp := by
    refine uintFrom_beBytes 8 _ ?_
    calc dp < 2 ^ 64 := hdp
      _ = 256 ^ 8 := by norm_num
  simp only [ConnectionEnd.toItem, ConnectionEnd.fields, ConnectionEnd.fromItem,
    state_fromItem_toItem, strFrom, cc_fromItem_toItem, e1,
    versionsFrom_map, Option.bind_eq_bind, Option.some_bind]

/-- Byte-level round trip for connection ends. -/
theorem ce_decode_encode (c : ConnectionEnd) (h : ConnectionEnd.WF c) :
    ConnectionEnd.decode (ConnectionEnd.encode c) = .ok c := by
  have hparse := parse_ce c h (3 * (ConnectionEnd.encode c).length) [] le_rfl
  rw [List.append_nil] at hparse
  unfold ConnectionEnd.decode rlpDecode
  rw [hparse]
  simp only [ce_fromItem_toItem c h]

/-! ## ChannelEnd -/

/-- Translated from `object.rs` 264-271. -/
structure ChannelEnd where
  state : State
  ordering : Ordering
  remote : ChannelCounterparty
  connection_hops : List (List Nat)
deriving DecidableEq

def ChannelEnd.payload : ChannelEnd → List Nat
  | ⟨st, o, r, hops⟩ =>
    State.encode st ++ (Ordering.encode o ++ (ChannelCounterparty.encode r ++
      listEnc (strsPayload hops)))

def ChannelEnd.fields : ChannelEnd → List Item
  | ⟨st, o, r, hops⟩ =>
    [State.toItem st, Ordering.toItem o, ChannelCounterparty.toItem r,
      .list (hops.map Item.str)]

def ChannelEnd.toItem (c : ChannelEnd) : Item := .list (ChannelEnd.fields c)

/-- Byte-level encoding of a channel end (`Object::encode`,
`object.rs` 273-276). -/
def ChannelEnd.encode (c : ChannelEnd) : List Nat := listEnc (ChannelEnd.payload c)

/-- Modelled from the spec: structural decode with the exact field count
and field types. -/
def ChannelEnd.fromItem : Item → Option ChannelEnd
  | .list [a, b, c, d] => do
    let st ← State.fromItem a
    let o ← Ordering.fromItem b
    let r ← ChannelCounterparty.fromItem c
    let hops ← (match d with
      | .list l => strsFrom l
      | .str _ => none)
    some (ChannelEnd.mk st o r hops)
  | _ => none

/-- Byte-level decoding of a channel end (`Object::decode`,
`object.rs` 278-280): any rlp-level failure collapses to `SerdeError`. -/
def ChannelEnd.decode (bs : List Nat) : Except VerifyError ChannelEnd :=
  match rlpDecode bs with
  | some it =>
    match ChannelEnd.fromItem it with
    | some c => .ok c
    | none => .error .SerdeError
  | none => .error .SerdeError

def ChannelEnd.WF : ChannelEnd → Prop
  | ⟨st, o, r, hops⟩ =>
    ChannelCounterparty.WF r ∧ (∀ x ∈ hops, strOK x) ∧
      (strsPayload hops).length < 2 ^ 64 ∧
      (State.encode st ++ (Ordering.encode o ++ (ChannelCounterparty.encode r ++
        listEnc (strsPayload hops)))).length < 2 ^ 64

instance : (c : ChannelEnd) → Decidable (ChannelEnd.WF c)
  | ⟨st, o, r, hops⟩ => by
    unfold ChannelEnd.WF
    infer_instance

theorem parseMany_che (c : ChannelEnd) (h : ChannelEnd.WF c) :
    ∀ fuel f, 3 * (ChannelEnd.payload c).length ≤ fuel →
      (ChannelEnd.payload c).length < f →
      parseMany (parseItem fuel) f (ChannelEnd.payload c) = some (ChannelEnd.fields c) := by
  obtain ⟨st, o, r, hops⟩ := c
  obtain ⟨hr, hhops, hhopsp, -⟩ := h
  intro fuel f hfuel hf
  simp only [ChannelEnd.payload] at hfuel hf ⊢
  simp only [ChannelEnd.fields]
  simp only [State.encode, Ordering.encode] at hfuel hf ⊢
  simp only [List.length_append] at hfuel hf
  have s4 : ∀ f', (listEnc (strsPayload hops)).length < f' →
      parseMany (parseItem fuel) f' (listEnc (strsPayload hops))
        = some [.list (hops.map Item.str)] :=
    parseMany_one_field fuel _ _ (listEnc_ne_nil _)
      (fun f' r' h' => parse_strs hops hhops hhopsp f' r' h') (by omega)
  have s3 : ∀ f', (ChannelCounterparty.encode r ++ listEnc (strsPayload hops)).length < f' →
      parseMany (parseItem fuel) f' (ChannelCounterparty.encode r ++ listEnc (strsPayload hops))
        = some [ChannelCounterparty.toItem r, .list (hops.map Item.str)] :=
    parseMany_cons_field fuel _ _ _ _ (listEnc_ne_nil _)
      (fun f' r' h' => parse_ccp r hr f' r' h') s4
      (by simp only [List.length_append]; omega)
  have s2 : ∀ f', (listEnc (uintEnc (Ordering.tag o)) ++ (ChannelCounterparty.encode r ++
        listEnc (strsPayload hops))).length < f' →
      parseMany (parseItem fuel) f' (listEnc (uintEnc (Ordering.tag o)) ++
        (ChannelCounterparty.encode r ++ listEnc (strsPayload hops)))
        = some [Ordering.toItem o, ChannelCounterparty.toItem r, .list (hops.map Item.str)] :=
    parseMany_cons_field fuel _ _ _ _ (listEnc_ne_nil _)
      (fun f' r' h' => parse_ordering o f' r' h') s3
      (by simp only [List.length_append]; omega)
  exact parseMany_cons_field fuel _ _ _ _ (listEnc_ne_nil _)
    (fun f' r' h' => parse_state st f' r' h') s2
    (by simp only [List.length_append]; omega) f
    (by simp only [List.length_append]; omega)

theorem che_payload_lt (c : ChannelEnd) (h : ChannelEnd.WF c) :
    (ChannelEnd.payload c).length < 2 ^ 64 := by
  obtain ⟨st, o, r, hops⟩ := c
  exact h.2.2.2

theorem parse_che (c : ChannelEnd) (h : ChannelEnd.WF c) :
    ∀ fuel rest, 3 * (ChannelEnd.encode c).length ≤ fuel →
      parseItem fuel (ChannelEnd.encode c ++ rest) = some (ChannelEnd.toItem c, rest) :=
  parse_listEnc _ _ (che_payload_lt c h) (parseMany_che c h)

theorem che_fromItem_toItem (c : ChannelEnd) :
    ChannelEnd.fromItem (ChannelEnd.toItem c) = some c := by
  obtain ⟨st, o, r, hops⟩ := c
  simp only [ChannelEnd.toItem, ChannelEnd.fields, ChannelEnd.fromItem,
    state_fromItem_toItem, ordering_fromItem_toItem, ccp_fromItem_toItem,
    strsFrom_map, Option.bind_eq_bind, Option.some_bind]

/-- Byte-level round trip for channel ends. -/
theorem che_decode_encode (c : ChannelEnd) (h : ChannelEnd.WF c) :
    ChannelEnd.decode (ChannelEnd.encode c) = .ok c := by
  have hparse := parse_che c h (3 * (ChannelEnd.encode c).length) [] le_rfl
  rw [List.append_nil] at hparse
  unfold ChannelEnd.decode rlpDecode
  rw [hparse]
  simp only [che_fromItem_toItem c]

/-! ## PacketAck -/

/-- Translated from `object.rs` 284-288. -/
structure PacketAck where
  ack : List Nat
  packet : Packet
deriving DecidableEq

def PacketAck.payload : PacketAck → List Nat
  | ⟨ack, pkt⟩ => strEnc ack ++ Packet.encode pkt

def PacketAck.fields : PacketAck → List Item
  | ⟨ack, pkt⟩ => [.str ack, Packet.toItem pkt]

def PacketAck.toItem (a : PacketAck) : Item := .list (PacketAck.fields a)

/-- Byte-level encoding of a packet acknowledgement (`Object::encode`,
`object.rs` 290-293). -/
def PacketAck.encode (a : PacketAck) : List Nat := listEnc (PacketAck.payload a)

/-- Modelled from the spec: structural decode with the exact field count
and field types. -/
def PacketAck.fromItem : Item → Option PacketAck
  | .list [a, b] => do
    let ack ← strFrom a
    let pkt ← Packet.fromItem b
    some (PacketAck.mk ack pkt)
  | _ => none

/-- Byte-level decoding of a packet acknowledgement (`Object::decode`,
`object.rs` 295-297): any rlp-level failure collapses to `SerdeError`. -/
def PacketAck.decode (bs : List Nat) : Except VerifyError PacketAck :=
  match rlpDecode bs with
  | some it =>
    match PacketAck.fromItem it with
    | some a => .ok a
    | none => .error .SerdeError
  | none => .error .SerdeError

def PacketAck.WF : PacketAck → Prop
  | ⟨ack, pkt⟩ =>
    strOK ack ∧ Packet.WF pkt ∧ (strEnc ack ++ Packet.encode pkt).length < 2 ^ 64

instance : (a : PacketAck) → Decidable (PacketAck.WF a)
  | ⟨ack, pkt⟩ => by
    unfold PacketAck.WF
    infer_instance

theorem parseMany_pa (a : PacketAck) (h : PacketAck.WF a) :
    ∀ fuel f, 3 * (PacketAck.payload a).length ≤ fuel →
      (PacketAck.payload a).length < f →
      parseMany (parseItem fuel) f (PacketAck.payload a) = some (PacketAck.fields a) := by
  obtain ⟨ack, pkt⟩ := a
  obtain ⟨hack, hpkt, -⟩ := h
  intro fuel f hfuel hf
  simp only [PacketAck.payload] at hfuel hf ⊢
  simp only [PacketAck.fields]
  simp only [List.length_append] at hfuel hf
  have s2 : ∀ f', (Packet.encode pkt).length < f' →
      parseMany (parseItem fuel) f' (Packet.encode pkt) = some [Packet.toItem pkt] :=
    parseMany_one_field fuel _ _ (listEnc_ne_nil _)
      (fun f' r h' => parse_packet pkt hpkt f' r h') (by omega)
  exact parseMany_cons_field fuel _ _ _ _ (strEnc_ne_nil _)
    (fun f' r h' => parse_strEnc _ hack.2 f' r h') s2
    (by simp only [List.length_append]; omega) f
    (by simp only [List.length_append]; omega)

theorem pa_payload_lt (a : PacketAck) (h : PacketAck.WF a) :
    (PacketAck.payload a).length < 2 ^ 64 := by
  obtain ⟨ack, pkt⟩ := a
  exact h.2.2

theorem parse_pa (a : PacketAck) (h : PacketAck.WF a) :
    ∀ fuel rest, 3 * (PacketAck.encode a).length ≤ fuel →
      parseItem fuel (PacketAck.encode a ++ rest) = some (PacketAck.toItem a, rest) :=
  parse_listEnc _ _ (pa_payload_lt a h) (parseMany_pa a h)

theorem pa_fromItem_toItem (a : PacketAck) (h : PacketAck.WF a) :
    PacketAck.fromItem (PacketAck.toItem a) = some a := by
  obtain ⟨ack, pkt⟩ := a
  obtain ⟨-, hpkt, -⟩ := h
  simp only [PacketAck.toItem, PacketAck.fields, PacketAck.fromItem, strFrom,
    packet_fromItem_toItem pkt hpkt, Option.bind_eq_bind, Option.some_bind]

/-- Byte-level round trip for packet acknowledgements. -/
theorem pa_decode_encode (a : PacketAck) (h : PacketAck.WF a) :
    PacketAck.decode (PacketAck.encode a) = .ok a := by
  have hparse := parse_pa a h (3 * (PacketAck.encode a).length) [] le_rfl
  rw [List.append_nil] at hparse
  unfold PacketAck.decode rlpDecode
  rw [hparse]
  simp only [pa_fromItem_toItem a h]

/-! ## Decode failure corollaries -/

theorem packet_payload_lt (p : Packet) (h : Packet.WF p) :
    (Packet.payload p).length < 2 ^ 64 :=
  h.2.2.2.2.2.2.2.2

theorem packet_decode_truncated (p : Packet) (h : Packet.WF p) (k : Nat)
    (hk : k < (Packet.encode p).length) :
    Packet.decode ((Packet.encode p).take k) = .error .SerdeError := by
  unfold Packet.decode rlpDecode
  simp only [Packet.encode] at hk ⊢
  rw [parse_truncated (Packet.payload p) (packet_payload_lt p h) k hk _]

theorem ce_decode_truncated (c : ConnectionEnd) (h : ConnectionEnd.WF c) (k : Nat)
    (hk : k < (ConnectionEnd.encode c).length) :
    ConnectionEnd.decode ((ConnectionEnd.encode c).take k) = .error .SerdeError := by
  unfold ConnectionEnd.decode rlpDecode
  simp only [ConnectionEnd.encode] at hk ⊢
  rw [parse_truncated (ConnectionEnd.payload c) (ce_payload_lt c h) k hk _]

theorem che_decode_truncated (c : ChannelEnd) (h : ChannelEnd.WF c) (k : Nat)
    (hk : k < (ChannelEnd.encode c).length) :
    ChannelEnd.decode ((ChannelEnd.encode c).take k) = .error .SerdeError := by
  unfold ChannelEnd.decode rlpDecode
  simp only [ChannelEnd.encode] at hk ⊢
  rw [parse_truncated (ChannelEnd.payload c) (che_payload_lt c h) k hk _]

theorem pa_decode_truncated (a : PacketAck) (h : PacketAck.WF a) (k : Nat)
    (hk : k < (PacketAck.encode a).length) :
    PacketAck.decode ((PacketAck.encode a).take k) = .error .SerdeError := by
  unfold PacketAck.decode rlpDecode
  simp only [PacketAck.encode] at hk ⊢
  rw [parse_truncated (PacketAck.payload a) (pa_payload_lt a h) k hk _]

theorem packet_decode_cases (bs : List Nat) :
    (∃ p, Packet.decode bs = .ok p) ∨ Packet.decode bs = .error .SerdeError := by
  cases hr : rlpDecode bs with
  | none =>
    right
    simp [Packet.decode, hr]
  | some it =>
    cases hf : Packet.fromItem it with
    | none =>
      right
      simp [Packet.decode, hr, hf]
    | some p =>
      left
      exact ⟨p, by simp [Packet.decode, hr, hf]⟩

theorem ce_decode_cases (bs : List Nat) :
    (∃ c, ConnectionEnd.decode bs = .ok c) ∨ ConnectionEnd.decode bs = .error .SerdeError := by
  cases hr : rlpDecode bs with
  | none =>
    right
    simp [ConnectionEnd.decode, hr]
  | some it =>
    cases hf : ConnectionEnd.fromItem it with
    | none =>
      right
      simp [ConnectionEnd.decode, hr, hf]
    | some c =>
      left
      exact ⟨c, by simp [ConnectionEnd.decode, hr, hf]⟩

theorem che_decode_cases (bs : List Nat) :
    (∃ c, ChannelEnd.decode bs = .ok c) ∨ ChannelEnd.decode bs = .error .SerdeError := by
  cases hr : rlpDecode bs with
  | none =>
    right
    simp [ChannelEnd.decode, hr]
  | some it =>
    cases hf : ChannelEnd.fromItem it with
    | none =>
      right
      simp [ChannelEnd.decode, hr, hf]
    | some c =>
      left
      exact ⟨c, by simp [ChannelEnd.decode, hr, hf]⟩

theorem pa_decode_cases (bs : List Nat) :
    (∃ a, PacketAck.decode bs = .ok a) ∨ PacketAck.decode bs = .error .SerdeError := by
  cases hr : rlpDecode bs with
  | none =>
    right
    simp [PacketAck.decode, hr]
  | some it =>
    cases hf : PacketAck.fromItem it with
    | none =>
      right
      simp [PacketAck.decode, hr, hf]
    | some a =>
      left
      exact ⟨a, by simp [PacketAck.decode, hr, hf]⟩

/-! ## Structural decoding succeeds only on the declared field layout -/

theorem packet_fromItem_shape (it : Item) (p : Packet) (h : Packet.fromItem it = some p) :
    ∃ a b c d e f g h', it = Item.list [a, b, c, d, e, f, g, h'] := by
  match it with
  | .str s => simp [Packet.fromItem] at h
  | .list [] => simp [Packet.fromItem] at h
  | .list [a] => simp [Packet.fromItem] at h
  | .list [a, b] => simp [Packet.fromItem] at h
  | .list [a, b, c] => simp [Packet.fromItem] at h
  | .list [a, b, c, d] => simp [Packet.fromItem] at h
  | .list [a, b, c, d, e] => simp [Packet.fromItem] at h
  | .list [a, b, c, d, e, f] => simp [Packet.fromItem] at h
  | .list [a, b, c, d, e, f, g] => simp [Packet.fromItem] at h
  | .list [a, b, c, d, e, f, g, h'] => exact ⟨a, b, c, d, e, f, g, h', rfl⟩
  | .list (a :: b :: c :: d :: e :: f :: g :: h' :: i :: t) => simp [Packet.fromItem] at h

theorem ce_fromItem_shape (it : Item) (c : ConnectionEnd)
    (h : ConnectionEnd.fromItem it = some c) :
    ∃ a b c' d e, it = Item.list [a, b, c', d, e] := by
  match it with
  | .str s => simp [ConnectionEnd.fromItem] at h
  | .list [] => simp [ConnectionEnd.fromItem] at h
  | .list [a] => simp [ConnectionEnd.fromItem] at h
  | .list [a, b] => simp [ConnectionEnd.fromItem] at h
  | .list [a, b, c'] => simp [ConnectionEnd.fromItem] at h
  | .list [a, b, c', d] => simp [ConnectionEnd.fromItem] at h
  | .list [a, b, c', d, e] => exact ⟨a, b, c', d, e, rfl⟩
  | .list (a :: b :: c' :: d :: e :: f :: t) => simp [ConnectionEnd.fromItem] at h

theorem che_fromItem_shape (it : Item) (c : ChannelEnd)
    (h : ChannelEnd.fromItem it = some c) :
    ∃ a b c' d, it = Item.list [a, b, c', d] := by
  match it with
  | .str s => simp [ChannelEnd.fromItem] at h
  | .list [] => simp [ChannelEnd.fromItem] at h
  | .list [a] => simp [ChannelEnd.fromItem] at h
  | .list [a, b] => simp [ChannelEnd.fromItem] at h
  | .list [a, b, c'] => simp [ChannelEnd.fromItem] at h
  | .list [a, b, c', d] => exact ⟨a, b, c', d, rfl⟩
  | .list (a :: b :: c' :: d :: e :: t) => simp [ChannelEnd.fromItem] at h

theorem pa_fromItem_shape (it : Item) (a : PacketAck)
    (h : PacketAck.fromItem it = some a) :
    ∃ x y, it = Item.list [x, y] := by
  match it with
  | .str s => simp [PacketAck.fromItem] at h
  | .list [] => simp [PacketAck.fromItem] at h
  | .list [x] => simp [PacketAck.fromItem] at h
  | .list [x, y] => exact ⟨x, y, rfl⟩
  | .list (x :: y :: z :: t) => simp [PacketAck.fromItem] at h

/-! ## Injectivity of encoding -/

theorem packet_encode_inj (p q : Packet) (hp : Packet.WF p) (hq : Packet.WF q)
    (h : Packet.encode p = Packet.encode q) : p = q := by
  have h1 := packet_decode_encode p hp
  have h2 := packet_decode_encode q hq
  rw [h] at h1
  have := h1.symm.trans h2
  injection this

theorem ce_encode_inj (p q : ConnectionEnd) (hp : ConnectionEnd.WF p)
    (hq : ConnectionEnd.WF q) (h : ConnectionEnd.encode p = ConnectionEnd.encode q) : p = q := by
  have h1 := ce_decode_encode p hp
  have h2 := ce_decode_encode q hq
  rw [h] at h1
  have := h1.symm.trans h2
  injection this

theorem che_encode_inj (p q : ChannelEnd) (hp : ChannelEnd.WF p)
    (hq : ChannelEnd.WF q) (h : ChannelEnd.encode p = ChannelEnd.encode q) : p = q := by
  have h1 := che_decode_encode p hp
  have h2 := che_decode_encode q hq
  rw [h] at h1
  have := h1.symm.trans h2
  injection this

theorem pa_encode_inj (p q : PacketAck) (hp : PacketAck.WF p)
    (hq : PacketAck.WF q) (h : PacketAck.encode p = PacketAck.encode q) : p = q := by
  have h1 := pa_decode_encode p hp
  have h2 := pa_decode_encode q hq
  rw [h] at h1
  have := h1.symm.trans h2
  injection this

theorem cc_encode_inj (p q : ConnectionCounterparty)
    (hp : ConnectionCounterparty.WF p) (hq : ConnectionCounterparty.WF q)
    (h : ConnectionCounterparty.encode p = ConnectionCounterparty.encode q) : p = q := by
  have h1 := cc_decode_encode p hp
  have h2 := cc_decode_encode q hq
  rw [h] at h1
  have := h1.symm.trans h2
  injection this

/-! ## Defaults

The `Default` implementations of `object.rs` use two helpers and one
constant from the crate root (`consts::COMMITMENT_PREFIX`,
`convert_byte32_to_hex`), which are not part of this repository's tree and
are modelled from the spec. -/

/-- Modelled from the spec: the protocol-wide constant commitment prefix
(`consts::COMMITMENT_PREFIX`).  The claims depend only on the default using
this constant, not on its byte value; here it is the ASCII string "ibc". -/
def COMMITMENT_PREFIX : List Nat := [105, 98, 99]

/-- One lowercase hexadecimal digit as an ASCII byte. -/
def hexDigit (n : Nat) : Nat := if n < 10 then 48 + n else 87 + n

/-- Modelled from the spec: the crate-root helper rendering a 32-byte value
as a lowercase hexadecimal string (`convert_byte32_to_hex`). -/
def convert_byte32_to_hex (b : List Nat) : List Nat :=
  (b.map (fun x => [hexDigit (x / 16), hexDigit (x % 16)])).flatten

/-- The UTF-8 byte list of a literal string (all constants in `object.rs`
are ASCII, so this is the character-code list). -/
def ascii (s : String) : List Nat := s.data.map Char.toNat

/-- Translated from `impl Default for ConnectionCounterparty`
(`object.rs` 136-144): empty client id, absent connection id, and the
protocol-wide commitment prefix. -/
def ConnectionCounterparty.default : ConnectionCounterparty :=
  ⟨[], none, COMMITMENT_PREFIX⟩

/-- Translated from `impl Default for Version` (`object.rs` 224-231). -/
def Version.default : Version :=
  ⟨ascii "1", [ascii "ORDER_ORDERED", ascii "ORDER_UNORDERED"]⟩

/-- Translated from `impl Default for ConnectionEnd` (`object.rs` 242-252):
default state (`Unknown`), the hex rendering of 32 zero bytes as client id,
the default counterparty, zero delay and no versions. -/
def ConnectionEnd.default : ConnectionEnd :=
  ⟨State.Unknown, convert_byte32_to_hex (List.replicate 32 0),
    ConnectionCounterparty.default, 0, []⟩

/-! ## Properties of `equal_unless_sequence` -/

theorem eus_iff (p q : Packet) :
    Packet.equal_unless_sequence p q = true ↔
      (p.source_port_id = q.source_port_id ∧ p.source_channel_id = q.source_channel_id ∧
        p.destination_port_id = q.destination_port_id ∧
        p.destination_channel_id = q.destination_channel_id ∧ p.data = q.data ∧
        p.timeout_height = q.timeout_height ∧ p.timeout_timestamp = q.timeout_timestamp) := by
  simp [Packet.equal_unless_sequence, and_assoc]

/-- Retraction of `VerifyError.toI8`: recover the variant from its code. -/
def VerifyError.fromCode : Nat → VerifyError
  | 100 => .FoundNoMessage
  | 101 => .EventNotMatch
  | 102 => .InvalidReceiptProof
  | 103 => .SerdeError
  | 104 => .WrongClient
  | 105 => .WrongConnectionId
  | 106 => .WrongConnectionnNumber
  | 107 => .WrongPortId
  | 108 => .WrongCommonHexId
  | 109 => .ConnectionsWrong
  | 110 => .WrongConnectionCnt
  | 111 => .WrongConnectionState
  | 112 => .WrongConnectionCounterparty
  | 113 => .WrongConnectionClient
  | 114 => .WrongConnectionNextChannelNumber
  | 115 => .WrongConnectionArgs
  | 116 => .WrongChannelState
  | 117 => .WrongChannel
  | 118 => .WrongChannelArgs
  | 119 => .WrongChannelSequence
  | 120 => .WrongUnusedPacket
  | 121 => .WrongPacketSequence
  | 122 => .WrongPacketStatus
  | 123 => .WrongPacketContent
  | 124 => .WrongPacketArgs
  | _ => .FoundNoMessage

theorem fromCode_toI8 (a : VerifyError) :
    VerifyError.fromCode (VerifyError.toI8 a).toNat = a := by
  cases a <;> rfl

/-! ## Concrete example values (used by the witnesses)

`packetEx` is the concrete scenario of the spec (section 8): sequence 5,
ports "p1", channels "channel-0" / "channel-1", data [1,2,3], timeout
height 100, timeout timestamp 0.  The identifiers are written as their
ASCII byte lists. -/

def packetEx : Packet :=
  ⟨5, [112, 49], [99, 104, 97, 110, 110, 101, 108, 45, 48], [112, 49],
    [99, 104, 97, 110, 110, 101, 108, 45, 49], [1, 2, 3], 100, 0⟩

/-- The same packet with sequence 6. -/
def packetEx6 : Packet :=
  ⟨6, [112, 49], [99, 104, 97, 110, 110, 101, 108, 45, 48], [112, 49],
    [99, 104, 97, 110, 110, 101, 108, 45, 49], [1, 2, 3], 100, 0⟩

def ccEx : ConnectionCounterparty := ⟨[97], none, [105, 98, 99]⟩

def ccpEx : ChannelCounterparty := ⟨[112], [99]⟩

def versionEx : Version := ⟨[49], [[79], [85]]⟩

def connectionEndEx : ConnectionEnd := ⟨State.Open, [97, 98], ccEx, 7, [versionEx]⟩

def channelEndEx : ChannelEnd := ⟨State.Open, Ordering.Ordered, ccpEx, [[99, 100]]⟩

def packetAckEx : PacketAck := ⟨[1], packetEx⟩

/-- The canonical wire bytes of a one-element list holding the integer
tag `t` — the shape both enumerations use on the wire. -/
def tagBytes (t : Nat) : List Nat := listEnc (uintEnc t)

/-! ## The claims -/

/-- C1: for every entity type implementing the codec (Packet,
ConnectionEnd, ChannelEnd, PacketAck) and every value constructible from
valid field ranges (the well-formedness predicates), decode of encode
succeeds and yields the same value. -/
theorem c1_round_trip :
    (∀ p : Packet, Packet.WF p → Packet.decode (Packet.encode p) = .ok p) ∧
    (∀ c : ConnectionEnd, ConnectionEnd.WF c →
      ConnectionEnd.decode (ConnectionEnd.encode c) = .ok c) ∧
    (∀ c : ChannelEnd, ChannelEnd.WF c → ChannelEnd.decode (ChannelEnd.encode c) = .ok c) ∧
    (∀ a : PacketAck, PacketAck.WF a → PacketAck.decode (PacketAck.encode a) = .ok a) :=
  ⟨packet_decode_encode, ce_decode_encode, che_decode_encode,
    pa_decode_encode⟩

theorem c1_round_trip_witness :
    Packet.decode (Packet.encode packetEx) = .ok packetEx ∧
    ConnectionEnd.decode (ConnectionEnd.encode connectionEndEx) = .ok connectionEndEx ∧
    ChannelEnd.decode (ChannelEnd.encode channelEndEx) = .ok channelEndEx ∧
    PacketAck.decode (PacketAck.encode packetAckEx) = .ok packetAckEx :=
  ⟨c1_round_trip.1 packetEx (by decide),
    c1_round_trip.2.1 connectionEndEx (by decide),
    c1_round_trip.2.2.1 channelEndEx (by decide),
    c1_round_trip.2.2.2 packetAckEx (by decide)⟩

set_option maxRecDepth 4096 in
set_option maxHeartbeats 1000000 in
/-- C2: decoding a `State` tag succeeds exactly for tags 1..6 and an
`Ordering` tag exactly for tags 1..3; any other tag byte (including 0, 7
and 255) is a decode error (`none`), never a default variant. -/
theorem c2_enum_closure :
    (∀ t : Nat, t < 256 →
      ((State.decodeBytes (tagBytes t)).isSome ↔ (1 ≤ t ∧ t ≤ 6)) ∧
      ((Ordering.decodeBytes (tagBytes t)).isSome ↔ (1 ≤ t ∧ t ≤ 3))) ∧
    State.decodeBytes (tagBytes 0) = none ∧
    State.decodeBytes (tagBytes 7) = none ∧
    State.decodeBytes (tagBytes 255) = none ∧
    Ordering.decodeBytes (tagBytes 0) = none ∧
    Ordering.decodeBytes (tagBytes 4) = none ∧
    Ordering.decodeBytes (tagBytes 255) = none ∧
    (∀ s : State, State.decodeBytes (State.encode s) = some s) ∧
    (∀ o : Ordering, Ordering.decodeBytes (Ordering.encode o) = some o) := by
  refine ⟨by decide, by decide, by decide, by decide, by decide, by decide, by decide, ?_, ?_⟩
  · intro s
    cases s <;> decide
  · intro o
    cases o <;> decide

theorem c2_enum_closure_witness :
    ((State.decodeBytes (tagBytes 7)).isSome ↔ (1 ≤ 7 ∧ 7 ≤ 6)) ∧
    ((Ordering.decodeBytes (tagBytes 7)).isSome ↔ (1 ≤ 7 ∧ 7 ≤ 3)) :=
  c2_enum_closure.1 7 (by decide)

/-- C3: for every entity type, encode is total (it is a function of the
value), deterministic (equal values give identical bytes), and injective on
well-formed values (distinct values never collide on the same bytes). -/
theorem c3_encode_function :
    (∀ p q : Packet, p = q → Packet.encode p = Packet.encode q) ∧
    (∀ p q : Packet, Packet.WF p → Packet.WF q →
      Packet.encode p = Packet.encode q → p = q) ∧
    (∀ p q : ConnectionEnd, p = q → ConnectionEnd.encode p = ConnectionEnd.encode q) ∧
    (∀ p q : ConnectionEnd, ConnectionEnd.WF p → ConnectionEnd.WF q →
      ConnectionEnd.encode p = ConnectionEnd.encode q → p = q) ∧
    (∀ p q : ChannelEnd, p = q → ChannelEnd.encode p = ChannelEnd.encode q) ∧
    (∀ p q : ChannelEnd, ChannelEnd.WF p → ChannelEnd.WF q →
      ChannelEnd.encode p = ChannelEnd.encode q → p = q) ∧
    (∀ p q : PacketAck, p = q → PacketAck.encode p = PacketAck.encode q) ∧
    (∀ p q : PacketAck, PacketAck.WF p → PacketAck.WF q →
      PacketAck.encode p = PacketAck.encode q → p = q) :=
  ⟨fun _ _ h => congrArg _ h, packet_encode_inj,
    fun _ _ h => congrArg _ h, ce_encode_inj,
    fun _ _ h => congrArg _ h, che_encode_inj,
    fun _ _ h => congrArg _ h, pa_encode_inj⟩

theorem c3_encode_function_witness : packetEx = packetEx :=
  c3_encode_function.2.1 packetEx packetEx (by decide) (by decide) rfl

/-- C4: decoding malformed input fails without panicking: truncating a
valid encoding by at least one byte yields the generic structural failure
`SerdeError`; every decode failure is reported as `SerdeError`; and a
structural decode succeeds only on a wire list with the entity's exact
field count (so byte sequences that do not conform to the field-count
layout are rejected). -/
theorem c4_malformed_rejection :
    (∀ p : Packet, Packet.WF p → ∀ k, k < (Packet.encode p).length →
      Packet.decode ((Packet.encode p).take k) = .error .SerdeError) ∧
    (∀ c : ConnectionEnd, ConnectionEnd.WF c → ∀ k, k < (ConnectionEnd.encode c).length →
      ConnectionEnd.decode ((ConnectionEnd.encode c).take k) = .error .SerdeError) ∧
    (∀ c : ChannelEnd, ChannelEnd.WF c → ∀ k, k < (ChannelEnd.encode c).length →
      ChannelEnd.decode ((ChannelEnd.encode c).take k) = .error .SerdeError) ∧
    (∀ a : PacketAck, PacketAck.WF a → ∀ k, k < (PacketAck.encode a).length →
      PacketAck.decode ((PacketAck.encode a).take k) = .error .SerdeError) ∧
    (∀ bs, (∃ p, Packet.decode bs = .ok p) ∨ Packet.decode bs = .error .SerdeError) ∧
    (∀ bs, (∃ c, ConnectionEnd.decode bs = .ok c) ∨
      ConnectionEnd.decode bs = .error .SerdeError) ∧
    (∀ bs, (∃ c, ChannelEnd.decode bs = .ok c) ∨ ChannelEnd.decode bs = .error .SerdeError) ∧
    (∀ bs, (∃ a, PacketAck.decode bs = .ok a) ∨ PacketAck.decode bs = .error .SerdeError) ∧
    (∀ it p, Packet.fromItem it = some p →
      ∃ a b c d e f g h', it = Item.list [a, b, c, d, e, f, g, h']) ∧
    (∀ it c, ConnectionEnd.fromItem it = some c → ∃ a b c' d e, it = Item.list [a, b, c', d, e]) ∧
    (∀ it c, ChannelEnd.fromItem it = some c → ∃ a b c' d, it = Item.list [a, b, c', d]) ∧
    (∀ it a, PacketAck.fromItem it = some a → ∃ x y, it = Item.list [x, y]) :=
  ⟨packet_decode_truncated, ce_decode_truncated, che_decode_truncated,
    pa_decode_truncated, packet_decode_cases, ce_decode_cases,
    che_decode_cases, pa_decode_cases, packet_fromItem_shape,
    ce_fromItem_shape, che_fromItem_shape, pa_fromItem_shape⟩

theorem c4_malformed_rejection_witness :
    Packet.decode ((Packet.encode packetEx).take 3) = .error .SerdeError ∧
    (∃ a b c d e f g h', Packet.toItem packetEx = Item.list [a, b, c, d, e, f, g, h']) :=
  ⟨c4_malformed_rejection.1 packetEx (by decide) 3 (by decide),
    c4_malformed_rejection.2.2.2.2.2.2.2.2.1 (Packet.toItem packetEx) packetEx (by decide)⟩

/-- C5: `Packet.equal_unless_sequence` is true exactly when every field
other than `sequence` coincides (so it is true for two packets differing
only in `sequence` and false for packets differing in any other field such
as `data`), and it is reflexive, symmetric and transitive. -/
theorem c5_equal_unless_sequence :
    (∀ p q : Packet, Packet.equal_unless_sequence p q = true ↔
      (p.source_port_id = q.source_port_id ∧ p.source_channel_id = q.source_channel_id ∧
        p.destination_port_id = q.destination_port_id ∧
        p.destination_channel_id = q.destination_channel_id ∧ p.data = q.data ∧
        p.timeout_height = q.timeout_height ∧ p.timeout_timestamp = q.timeout_timestamp)) ∧
    (∀ s1 s2 a b c d e f g, Packet.equal_unless_sequence ⟨s1, a, b, c, d, e, f, g⟩
      ⟨s2, a, b, c, d, e, f, g⟩ = true) ∧
    (∀ p q : Packet, p.data ≠ q.data → Packet.equal_unless_sequence p q = false) ∧
    (∀ p : Packet, Packet.equal_unless_sequence p p = true) ∧
    (∀ p q : Packet, Packet.equal_unless_sequence p q = Packet.equal_unless_sequence q p) ∧
    (∀ p q r : Packet, Packet.equal_unless_sequence p q = true →
      Packet.equal_unless_sequence q r = true → Packet.equal_unless_sequence p r = true) := by
  refine ⟨eus_iff, ?_, ?_, ?_, ?_, ?_⟩
  · intro s1 s2 a b c d e f g
    rw [eus_iff]
    exact ⟨rfl, rfl, rfl, rfl, rfl, rfl, rfl⟩
  · intro p q hd
    cases hb : Packet.equal_unless_sequence p q
    · rfl
    · exact absurd ((eus_iff p q).mp hb).2.2.2.2.1 hd
  · intro p
    rw [eus_iff]
    exact ⟨rfl, rfl, rfl, rfl, rfl, rfl, rfl⟩
  · intro p q
    rw [Bool.eq_iff_iff, eus_iff, eus_iff]
    constructor
    · rintro ⟨h1, h2, h3, h4, h5, h6, h7⟩
      exact ⟨h1.symm, h2.symm, h3.symm, h4.symm, h5.symm, h6.symm, h7.symm⟩
    · rintro ⟨h1, h2, h3, h4, h5, h6, h7⟩
      exact ⟨h1.symm, h2.symm, h3.symm, h4.symm, h5.symm, h6.symm, h7.symm⟩
  · intro p q r hpq hqr
    rw [eus_iff] at hpq hqr ⊢
    obtain ⟨a1, a2, a3, a4, a5, a6, a7⟩ := hpq
    obtain ⟨b1, b2, b3, b4, b5, b6, b7⟩ := hqr
    exact ⟨a1.trans b1, a2.trans b2, a3.trans b3, a4.trans b4, a5.trans b5,
      a6.trans b6, a7.trans b7⟩

theorem c5_equal_unless_sequence_witness :
    Packet.equal_unless_sequence packetEx packetEx6 = true :=
  c5_equal_unless_sequence.2.2.2.2.2 packetEx packetEx packetEx6 (by decide) (by decide)

/-- C6: default construction is stable: the default
`ConnectionCounterparty` carries the protocol-wide commitment prefix, the
default `ConnectionEnd` client id is the hex rendering of 32 zero bytes
(64 ASCII zeros), and the default `Version` has identifier "1" and features
exactly ["ORDER_ORDERED", "ORDER_UNORDERED"] in that order. -/
theorem c6_default_stability :
    ConnectionCounterparty.commitment_prefix ConnectionCounterparty.default
      = COMMITMENT_PREFIX ∧
    ConnectionEnd.default.client_id = convert_byte32_to_hex (List.replicate 32 0) ∧
    ConnectionEnd.default.client_id = List.replicate 64 48 ∧
    Version.default.identifier = ascii "1" ∧
    Version.default.identifier = [49] ∧
    Version.default.features = [ascii "ORDER_ORDERED", ascii "ORDER_UNORDERED"] :=
  ⟨rfl, rfl, by decide, rfl, by decide, rfl⟩

/-- C7: both enumerations encode as a single-element list containing their
numeric tag (concretely the two bytes `[193, tag]`), never as the raw tag
alone, with stable tags Unknown=1 .. Frozen=6 and Unknown=1 .. Ordered=3. -/
theorem c7_enum_encoding :
    (∀ s : State, State.encode s = [193, State.tag s]) ∧
    (∀ o : Ordering, Ordering.encode o = [193, Ordering.tag o]) ∧
    (∀ s : State, State.toItem s = Item.list [Item.str (beBytes (State.tag s))]) ∧
    (∀ s : State, State.encode s ≠ uintEnc (State.tag s)) ∧
    (∀ o : Ordering, Ordering.encode o ≠ uintEnc (Ordering.tag o)) ∧
    State.tag State.Unknown = 1 ∧ State.tag State.Init = 2 ∧
    State.tag State.OpenTry = 3 ∧ State.tag State.Open = 4 ∧
    State.tag State.Closed = 5 ∧ State.tag State.Frozen = 6 ∧
    Ordering.tag Ordering.Unknown = 1 ∧ Ordering.tag Ordering.Unordered = 2 ∧
    Ordering.tag Ordering.Ordered = 3 :=
  ⟨fun s => by cases s <;> rfl, fun o => by cases o <;> rfl, fun s => rfl,
    fun s => by cases s <;> decide, fun o => by cases o <;> decide,
    rfl, rfl, rfl, rfl, rfl, rfl, rfl, rfl, rfl⟩

/-- C8: a `ConnectionCounterparty` with an absent connection id round
trips to an absent connection id, a present-but-empty one round trips
separately, and their encodings are distinct. -/
theorem c8_optional_field :
    (∀ cid pfx : List Nat, ConnectionCounterparty.WF ⟨cid, none, pfx⟩ →
      ConnectionCounterparty.decodeBytes (ConnectionCounterparty.encode ⟨cid, none, pfx⟩)
        = some ⟨cid, none, pfx⟩) ∧
    (∀ cid pfx : List Nat, ConnectionCounterparty.WF ⟨cid, some [], pfx⟩ →
      ConnectionCounterparty.decodeBytes (ConnectionCounterparty.encode ⟨cid, some [], pfx⟩)
        = some ⟨cid, some [], pfx⟩) ∧
    (∀ cid pfx : List Nat, ConnectionCounterparty.WF ⟨cid, none, pfx⟩ →
      ConnectionCounterparty.WF ⟨cid, some [], pfx⟩ →
      ConnectionCounterparty.encode ⟨cid, none, pfx⟩ ≠
        ConnectionCounterparty.encode ⟨cid, some [], pfx⟩) := by
  refine ⟨fun cid pfx h => cc_decode_encode _ h,
    fun cid pfx h => cc_decode_encode _ h,
    fun cid pfx h1 h2 heq => ?_⟩
  have heqv := cc_encode_inj _ _ h1 h2 heq
  have h3 : (none : Option (List Nat)) = some [] :=
    congrArg ConnectionCounterparty.connection_id heqv
  simp at h3

theorem c8_optional_field_witness :
    ConnectionCounterparty.decodeBytes (ConnectionCounterparty.encode ⟨[97], none, [105, 98, 99]⟩)
      = some ⟨[97], none, [105, 98, 99]⟩ ∧
    ConnectionCounterparty.encode ⟨[97], none, [105, 98, 99]⟩ ≠
      ConnectionCounterparty.encode ⟨[97], some [], [105, 98, 99]⟩ :=
  ⟨c8_optional_field.1 [97] [105, 98, 99] (by decide),
    c8_optional_field.2.2 [97] [105, 98, 99] (by decide) (by decide)⟩

/-- C9: the conversion from `VerifyError` to a signed 8-bit code is
injective, every code lies in [100, 124] (hence fits an `i8` without
wrapping), and `FoundNoMessage` maps to 100. -/
theorem c9_error_codes :
    (∀ a b : VerifyError, VerifyError.toI8 a = VerifyError.toI8 b → a = b) ∧
    (∀ a : VerifyError, 100 ≤ VerifyError.toI8 a ∧ VerifyError.toI8 a ≤ 124) ∧
    (∀ a : VerifyError, (-128 : Int) ≤ VerifyError.toI8 a ∧ VerifyError.toI8 a ≤ 127) ∧
    VerifyError.toI8 VerifyError.FoundNoMessage = 100 := by
  refine ⟨?_, ?_, ?_, rfl⟩
  · intro a b h
    have ha := fromCode_toI8 a
    rw [h, fromCode_toI8 b] at ha
    exact ha.symm
  · intro a
    cases a <;> exact ⟨by decide, by decide⟩
  · intro a
    cases a <;> exact ⟨by decide, by decide⟩

theorem c9_error_codes_witness : VerifyError.SerdeError = VerifyError.SerdeError :=
  c9_error_codes.1 VerifyError.SerdeError VerifyError.SerdeError rfl

/-- C10: `State` and `Ordering` variants with the same numeric tag have
byte-identical encodings — the wire form carries no information
distinguishing the two enum types. -/
theorem c10_cross_enum_encoding :
    (∀ (s : State) (o : Ordering), State.tag s = Ordering.tag o →
      State.encode s = Ordering.encode o) ∧
    State.encode State.Unknown = Ordering.encode Ordering.Unknown ∧
    State.encode State.Init = Ordering.encode Ordering.Unordered ∧
    State.encode State.OpenTry = Ordering.encode Ordering.Ordered := by
  refine ⟨?_, rfl, rfl, rfl⟩
  intro s o h
  simp only [State.encode, Ordering.encode, h]

theorem c10_cross_enum_encoding_witness :
    State.encode State.Unknown = Ordering.encode Ordering.Unknown :=
  c10_cross_enum_encoding.1 State.Unknown Ordering.Unknown rfl

end Ics
